import Mathlib

namespace ChatViewer

/-
Verification development for the google-chat-viewer terminal chat viewer
(src/chat_viewer.py).  The Python source is shallowly embedded: Python
strings are lists of characters, JSON values loaded by json.load are an
inductive type, fallible operations return Except/Option, and the ambient
terminal geometry (TERMINAL_WIDTH, MAX_BUBBLE_WIDTH) is threaded as explicit
parameters.
-/

/-- Python strings are modelled as lists of characters. -/
abbrev Str := List Char

/-- Embed a Lean string literal into the model's string type. -/
def lit (s : String) : Str := s.data

/-- Width of a single character, modelling the wcwidth library table for the
character ranges exercised by this development: C0/C1 control characters and
DEL are non-printable (width -1), combining diacritics have width 0, CJK
unified ideographs and the pushpin emoji are wide (width 2), and the
remaining characters used here (printable ASCII among them) have width 1. -/
def charWidth (c : Char) : Int :=
  if c.toNat < 0x20 ∨ c.toNat = 0x7f ∨ (0x80 ≤ c.toNat ∧ c.toNat < 0xa0) then -1
  else if 0x300 ≤ c.toNat ∧ c.toNat ≤ 0x36f then 0
  else if (0x4e00 ≤ c.toNat ∧ c.toNat ≤ 0x9fff) ∨ c.toNat = 0x1f4cc then 2
  else 1

/-- Whether every character of the string is printable (wcwidth ≠ -1). -/
def printable (s : Str) : Bool := s.all (fun c => charWidth c != -1)

/-- wcswidth from the wcwidth library: -1 as soon as the string contains a
non-printable character, otherwise the sum of the character widths. -/
def wcswidth (s : Str) : Int :=
  if printable s then (s.map charWidth).sum else -1

/-- pad_text from the source: `extra = width - wcswidth(text)` and the text is
extended by `max(0, extra)` spaces. -/
def pad_text (text : Str) (width : Int) : Str :=
  let extra : Int := width - wcswidth text
  text ++ List.replicate (max 0 extra).toNat ' '

/-- Python/JSON values as produced by json.load. -/
inductive PyVal where
  | pynone : PyVal
  | pybool : Bool → PyVal
  | pyint : Int → PyVal
  | pystr : Str → PyVal
  | pylist : List PyVal → PyVal
  | pydict : List (Str × PyVal) → PyVal

/-- Dictionary lookup (d[k] / d.get(k)); with duplicate keys json.load keeps
the last binding, hence the search over the reversed association list. -/
def dictGet (kvs : List (Str × PyVal)) (k : Str) : Option PyVal :=
  (kvs.reverse.find? (fun p => p.1 == k)).map Prod.snd

/-- Result of attempting `open(path)` followed by `json.load(f)`: none models
the attempt raising (absent file, unreadable content, or invalid JSON),
some j a successfully parsed JSON document j. -/
abbrev FileRead := Option PyVal

/-- load_messages from the source.  The Python body contains no exception
handler, so a failing open or json.load propagates to the caller, modelled as
Except.error; a successfully parsed document is dispatched on its shape. -/
def load_messages : FileRead → Except Unit PyVal
  | Option.none => Except.error ()
  | Option.some (PyVal.pydict m) =>
    match dictGet m (lit "messages") with
    | Option.some v => Except.ok v
    | Option.none => Except.ok (PyVal.pylist [])
  | Option.some (PyVal.pylist xs) => Except.ok (PyVal.pylist xs)
  | Option.some _ => Except.ok (PyVal.pylist [])

/-- Whitespace characters recognised by Python's regex \s and str.strip for
the character ranges exercised here (exotic Unicode whitespace is not used
by any input in this development). -/
def isPyWs (c : Char) : Bool :=
  c == ' ' || c == '\t' || c == '\n' || c == '\x0b' || c == '\x0c' || c == '\r'

/-- Match a literal pattern case-insensitively (strptime compiles its format
regex with IGNORECASE), returning the remaining input. -/
def matchCI : Str → Str → Option Str
  | [], rest => Option.some rest
  | _ :: _, [] => Option.none
  | p :: ps, c :: cs => if p.toLower == c.toLower then matchCI ps cs else Option.none

/-- Match the first of a list of alternative literals (strptime sorts name
alternatives longest-first; the English day/month names used here have no
prefix conflicts), returning the index of the alternative that matched. -/
def matchAltCI : List Str → Str → Option (Nat × Str)
  | [], _ => Option.none
  | p :: ps, s =>
    match matchCI p s with
    | Option.some rest => Option.some (0, rest)
    | Option.none => (matchAltCI ps s).map (fun r => (r.1 + 1, r.2))

/-- Match the regex \s+ (a run of whitespace in the strptime format becomes
\s+ in its compiled regex). -/
def matchWs1 : Str → Option Str
  | [] => Option.none
  | c :: cs => if isPyWs c then Option.some (cs.dropWhile isPyWs) else Option.none

/-- Numeric value of a decimal digit character. -/
def digitVal (c : Char) : Nat := c.toNat - 48

/-- Match strptime's %d directive, regex (3[0-1]|[1-2]\d|0[1-9]|[1-9]| [1-9]). -/
def matchDay : Str → Option (Nat × Str)
  | c1 :: c2 :: rest =>
    if c1 == '3' && (c2 == '0' || c2 == '1') then
      Option.some (30 + digitVal c2, rest)
    else if (c1 == '1' || c1 == '2') && c2.isDigit then
      Option.some (digitVal c1 * 10 + digitVal c2, rest)
    else if c1 == '0' && (c2.isDigit && c2 != '0') then
      Option.some (digitVal c2, rest)
    else if c1.isDigit && c1 != '0' then
      Option.some (digitVal c1, c2 :: rest)
    else if c1 == ' ' && (c2.isDigit && c2 != '0') then
      Option.some (digitVal c2, rest)
    else Option.none
  | [c1] => if c1.isDigit && c1 != '0' then Option.some (digitVal c1, []) else Option.none
  | [] => Option.none

/-- Match strptime's %H directive, regex (2[0-3]|[0-1]\d|\d). -/
def matchHour : Str → Option (Nat × Str)
  | c1 :: c2 :: rest =>
    if c1 == '2' && (c2.isDigit && digitVal c2 ≤ 3) then
      Option.some (20 + digitVal c2, rest)
    else if (c1 == '0' || c1 == '1') && c2.isDigit then
      Option.some (digitVal c1 * 10 + digitVal c2, rest)
    else if c1.isDigit then
      Option.some (digitVal c1, c2 :: rest)
    else Option.none
  | [c1] => if c1.isDigit then Option.some (digitVal c1, []) else Option.none
  | [] => Option.none

/-- Match strptime's %M directive, regex ([0-5]\d|\d). -/
def matchMinute : Str → Option (Nat × Str)
  | c1 :: c2 :: rest =>
    if (c1.isDigit && digitVal c1 ≤ 5) && c2.isDigit then
      Option.some (digitVal c1 * 10 + digitVal c2, rest)
    else if c1.isDigit then
      Option.some (digitVal c1, c2 :: rest)
    else Option.none
  | [c1] => if c1.isDigit then Option.some (digitVal c1, []) else Option.none
  | [] => Option.none

/-- Match strptime's %S directive, regex (6[0-1]|[0-5]\d|\d); 60 and 61 are
accepted by the regex (leap seconds) and rejected later by the datetime
constructor. -/
def matchSecond : Str → Option (Nat × Str)
  | c1 :: c2 :: rest =>
    if c1 == '6' && (c2 == '0' || c2 == '1') then
      Option.some (60 + digitVal c2, rest)
    else if (c1.isDigit && digitVal c1 ≤ 5) && c2.isDigit then
      Option.some (digitVal c1 * 10 + digitVal c2, rest)
    else if c1.isDigit then
      Option.some (digitVal c1, c2 :: rest)
    else Option.none
  | [c1] => if c1.isDigit then Option.some (digitVal c1, []) else Option.none
  | [] => Option.none

/-- Match strptime's %Y directive, regex (\d\d\d\d): exactly four digits. -/
def matchYear : Str → Option (Nat × Str)
  | c1 :: c2 :: c3 :: c4 :: rest =>
    if c1.isDigit && c2.isDigit && c3.isDigit && c4.isDigit then
      Option.some (digitVal c1 * 1000 + digitVal c2 * 100 + digitVal c3 * 10 + digitVal c4,
        rest)
    else Option.none
  | _ => Option.none

/-- Match a single literal character. -/
def matchChar (ch : Char) : Str → Option Str
  | c :: cs => if c == ch then Option.some cs else Option.none
  | [] => Option.none

/-- Full English weekday names (locale C), as matched by %A. -/
def weekdayNames : List Str :=
  [lit "monday", lit "tuesday", lit "wednesday", lit "thursday", lit "friday",
   lit "saturday", lit "sunday"]

/-- Full English month names (locale C), as matched by %B. -/
def monthNames : List Str :=
  [lit "january", lit "february", lit "march", lit "april", lit "may", lit "june",
   lit "july", lit "august", lit "september", lit "october", lit "november",
   lit "december"]

/-- Match the "%A, " part of the format: weekday name, comma, whitespace. -/
def matchWeekdayPart (s : Str) : Option Str :=
  match matchAltCI weekdayNames s with
  | Option.none => Option.none
  | Option.some (_, s1) =>
    match matchChar ',' s1 with
    | Option.none => Option.none
    | Option.some s2 => matchWs1 s2

/-- Match the "%d %B %Y " part of the format: day, month name, 4-digit year,
each followed by whitespace; returns (day, month, year, rest). -/
def matchDMYPart (s : Str) : Option (Nat × Nat × Nat × Str) :=
  match matchDay s with
  | Option.none => Option.none
  | Option.some (d, s1) =>
    match matchWs1 s1 with
    | Option.none => Option.none
    | Option.some s2 =>
      match matchAltCI monthNames s2 with
      | Option.none => Option.none
      | Option.some (mIdx, s3) =>
        match matchWs1 s3 with
        | Option.none => Option.none
        | Option.some s4 =>
          match matchYear s4 with
          | Option.none => Option.none
          | Option.some (y, s5) =>
            match matchWs1 s5 with
            | Option.none => Option.none
            | Option.some s6 => Option.some (d, mIdx + 1, y, s6)

/-- Match the "%H:%M:%S" part of the format; returns (hour, minute, second,
rest). -/
def matchHMSPart (s : Str) : Option (Nat × Nat × Nat × Str) :=
  match matchHour s with
  | Option.none => Option.none
  | Option.some (hh, s1) =>
    match matchChar ':' s1 with
    | Option.none => Option.none
    | Option.some s2 =>
      match matchMinute s2 with
      | Option.none => Option.none
      | Option.some (mm, s3) =>
        match matchChar ':' s3 with
        | Option.none => Option.none
        | Option.some s4 =>
          match matchSecond s4 with
          | Option.none => Option.none
          | Option.some (ss, s5) => Option.some (hh, mm, ss, s5)

/-- Match the trailing " UTC" (with \s+ for the format's space) and the end
of the input (strptime requires the match to cover the whole string). -/
def matchTail (s : Str) : Bool :=
  match matchWs1 s with
  | Option.none => false
  | Option.some s1 =>
    match matchCI (lit "utc") s1 with
    | Option.none => false
    | Option.some s2 => s2.isEmpty

/-- Regex-level match of strptime("...", "%A, %d %B %Y at %H:%M:%S UTC"),
anchored at both ends: returns (year, month, day, hour, minute, second). -/
def matchTakeoutDate (s : Str) : Option (Nat × Nat × Nat × Nat × Nat × Nat) :=
  match matchWeekdayPart s with
  | Option.none => Option.none
  | Option.some s1 =>
    match matchDMYPart s1 with
    | Option.none => Option.none
    | Option.some (d, m, y, s2) =>
      match matchCI (lit "at") s2 with
      | Option.none => Option.none
      | Option.some s3 =>
        match matchWs1 s3 with
        | Option.none => Option.none
        | Option.some s4 =>
          match matchHMSPart s4 with
          | Option.none => Option.none
          | Option.some (hh, mm, ss, s5) =>
            if matchTail s5 then Option.some (y, m, d, hh, mm, ss) else Option.none

/-- Gregorian leap-year predicate, as used by the datetime constructor. -/
def isLeapYear (y : Nat) : Bool := y % 4 == 0 && (y % 100 != 0 || y % 400 == 0)

/-- Number of days in a month, as validated by the datetime constructor. -/
def daysInMonth (y m : Nat) : Nat :=
  if m == 2 then (if isLeapYear y then 29 else 28)
  else if m == 4 || m == 6 || m == 9 || m == 11 then 30 else 31

/-- strptime for the Takeout timestamp format: the regex match followed by the
datetime constructor validation (year ≥ 1, day within the month, second ≤ 59;
the parsed weekday name is not checked for consistency with the date). -/
def strptimeTakeout (s : Str) : Option (Nat × Nat × Nat × Nat × Nat × Nat) :=
  match matchTakeoutDate s with
  | Option.none => Option.none
  | Option.some (y, m, d, hh, mm, ss) =>
    if 1 ≤ y && 1 ≤ d && d ≤ daysInMonth y m && ss ≤ 59 then
      Option.some (y, m, d, hh, mm, ss)
    else Option.none

/-- Character for a decimal digit. -/
def digitChar (n : Nat) : Char :=
  if n = 0 then '0' else if n = 1 then '1' else if n = 2 then '2'
  else if n = 3 then '3' else if n = 4 then '4' else if n = 5 then '5'
  else if n = 6 then '6' else if n = 7 then '7' else if n = 8 then '8' else '9'

/-- Decimal digit string of a natural number (fuelled division loop). -/
def natDigitsAux : Nat → Nat → Str
  | 0, _ => []
  | fuel + 1, n =>
    if n < 10 then [digitChar n]
    else natDigitsAux fuel (n / 10) ++ [digitChar (n % 10)]

/-- Decimal digit string of a natural number. -/
def natDigits (n : Nat) : Str := natDigitsAux (n + 1) n

/-- Two-digit zero-padded decimal string (strftime %m/%d/%H/%M). -/
def pad2 (n : Nat) : Str := if n < 10 then '0' :: natDigits n else natDigits n

/-- strftime("%Y-%m-%d %H:%M") on this platform: the year is printed without
zero padding (glibc %Y), the other fields zero-padded to two digits. -/
def formatCleanDate (y m d hh mm : Nat) : Str :=
  natDigits y ++ '-' :: pad2 m ++ '-' :: pad2 d ++ ' ' :: pad2 hh ++ ':' :: pad2 mm

/-- clean_date from the source: try strptime with the fixed format and
reformat on success; the bare except returns the input unchanged on any
failure. -/
def clean_date (s : Str) : Str :=
  match strptimeTakeout s with
  | Option.some (y, m, d, hh, mm, _) => formatCleanDate y m d hh mm
  | Option.none => s

/-- A sender record (the "creator" object of a message): email and name,
each Option.none when the key is absent.  A present key whose value is null
(dict.get then returns None) behaves like an absent key for email; a null or
non-dict creator value makes the Python raise and is outside this model. -/
structure Creator where
  email : Option Str
  name : Option Str
  deriving DecidableEq

/-- A message label object; label_type is Option.none when the key is
absent (l.get("label_type") then returns None, which never equals
"PINNED"). -/
structure Label where
  label_type : Option Str
  deriving DecidableEq

/-- A message record, restricted to the fields the viewer reads;
Option.none models an absent key.  Records whose fields are present with an
unexpected type (non-dict creator, null text, non-list labels, ...) make the
Python raise and are outside this model. -/
structure Msg where
  creator : Option Creator
  text : Option Str
  created_date : Option Str
  message_labels : Option (List Label)
  deriving DecidableEq

/-- The default creator used when the "creator" key is absent
(msg.get("creator", \x7b\x7d)). -/
def defaultCreator : Creator := ⟨Option.none, Option.none⟩

/-- The creator object of a message (msg.get("creator", \x7b\x7d)). -/
def msgCreator (m : Msg) : Creator := m.creator.getD defaultCreator

/-- creator.get("email") for a message. -/
def msgEmail (m : Msg) : Option Str := (msgCreator m).email

/-- creator.get("name", "Unknown") for a message. -/
def msgName (m : Msg) : Str := (msgCreator m).name.getD (lit "Unknown")

/-- is_pinned from the source: the message carries at least one label whose
label_type equals "PINNED" (msg.get("message_labels", []) defaults to the
empty list). -/
def is_pinned (m : Msg) : Bool :=
  (m.message_labels.getD []).any (fun l => l.label_type == Option.some (lit "PINNED"))

/-- count_pinned from the source: sum(1 for m in messages if is_pinned(m)),
written as the length of the is_pinned filter. -/
def count_pinned (msgs : List Msg) : Nat := (msgs.filter (fun m => is_pinned m)).length

/-- extract_pinned from the source. -/
def extract_pinned (msgs : List Msg) : List Msg :=
  msgs.filter (fun m => is_pinned m)

/-- get_dm_participant from the source: scan messages in order, skip the
viewer's own, return the first name that is truthy (non-empty) and not
"Unknown"; fall back to "Deleted User". -/
def get_dm_participant : List Msg → Str → Str
  | [], _ => lit "Deleted User"
  | m :: ms, my =>
    if msgEmail m == Option.some my then get_dm_participant ms my
    else if !(msgName m).isEmpty && msgName m != lit "Unknown" then msgName m
    else get_dm_participant ms my

/-- The condition under which get_dm_participant's loop returns a message's
name: the sender identity differs from the viewer's and the name is
non-empty and not the "Unknown" sentinel. -/
def dmCandidate (my : Str) (m : Msg) : Bool :=
  !(msgEmail m == Option.some my) &&
    (!(msgName m).isEmpty && msgName m != lit "Unknown")

/-- A concrete message from the viewer (a@x.com), used by witnesses. -/
def msgAlice : Msg :=
  ⟨Option.some ⟨Option.some (lit "a@x.com"), Option.some (lit "Alice")⟩,
   Option.some (lit "hi"), Option.none, Option.none⟩

/-- A concrete message from the counterpart (b@x.com, name Bob). -/
def msgBob : Msg :=
  ⟨Option.some ⟨Option.some (lit "b@x.com"), Option.some (lit "Bob")⟩,
   Option.some (lit "yo"), Option.none, Option.none⟩

/-- Python truthiness of a JSON value. -/
def pyTruthy : PyVal → Bool
  | PyVal.pynone => false
  | PyVal.pybool b => b
  | PyVal.pyint n => n != 0
  | PyVal.pystr s => !s.isEmpty
  | PyVal.pylist xs => !xs.isEmpty
  | PyVal.pydict kvs => !kvs.isEmpty

/-- Whether a value may be used as a dict key; lists and dicts are
unhashable and raise TypeError on insertion. -/
def pyHashable : PyVal → Bool
  | PyVal.pylist _ => false
  | PyVal.pydict _ => false
  | _ => true

/-- Equality test for tally keys.  Only hashable scalars reach the tally
(lists and dicts raise before insertion), so the structural scalar cases
suffice for the values this development reasons about. -/
def scalarBeq : PyVal → PyVal → Bool
  | PyVal.pynone, PyVal.pynone => true
  | PyVal.pybool a, PyVal.pybool b => a == b
  | PyVal.pyint a, PyVal.pyint b => a == b
  | PyVal.pystr a, PyVal.pystr b => a == b
  | _, _ => false

/-- email_count[email] = email_count.get(email, 0) + 1 on an
insertion-ordered association list (an existing key keeps its position, a
new key is appended at the end, as in a Python dict). -/
def bumpCount : List (PyVal × Nat) → PyVal → List (PyVal × Nat)
  | [], k => [(k, 1)]
  | (k1, c) :: rest, k =>
    if scalarBeq k1 k then (k1, c + 1) :: rest else (k1, c) :: bumpCount rest k

/-- The loop over one folder's messages inside detect_my_email's try block:
tally every truthy creator email.  A non-dict message, a present non-dict
creator value, or an unhashable email makes the body raise; the bare except
then abandons the folder, keeping the counts already accumulated. -/
def tallyMessages : List (PyVal × Nat) → List PyVal → List (PyVal × Nat)
  | counts, [] => counts
  | counts, msg :: rest =>
    match msg with
    | PyVal.pydict m =>
      match (dictGet m (lit "creator")).getD (PyVal.pydict []) with
      | PyVal.pydict c =>
        let email := (dictGet c (lit "email")).getD PyVal.pynone
        if pyTruthy email then
          if pyHashable email then tallyMessages (bumpCount counts email) rest
          else counts
        else tallyMessages counts rest
      | _ => counts
    | _ => counts

/-- One folder's contribution to the tally in detect_my_email.  The folder
contributes nothing when it has no messages file (outer none), when
open/json.load raises (inner none), when the parsed record has no .get
attribute — in particular when it is a bare list — or when its "messages"
value cannot be sliced (a non-list); the bare except swallows each of these. -/
def tallyFolder (counts : List (PyVal × Nat)) : Option FileRead → List (PyVal × Nat)
  | Option.none => counts
  | Option.some Option.none => counts
  | Option.some (Option.some (PyVal.pydict m)) =>
    match (dictGet m (lit "messages")).getD (PyVal.pylist []) with
    | PyVal.pylist msgs => tallyMessages counts (msgs.take 200)
    | _ => counts
  | Option.some (Option.some _) => counts

/-- max(email_count, key=email_count.get): fold over the tally keeping the
first key whose count is strictly greater than the best so far, which is
Python's tie-breaking (max returns the first maximal element in iteration
order). -/
def maxKeyAux : PyVal → Nat → List (PyVal × Nat) → PyVal
  | best, _, [] => best
  | best, bc, (k, c) :: rest =>
    if bc < c then maxKeyAux k c rest else maxKeyAux best bc rest

/-- detect_my_email from the source, over the ordered list of conversation
folders (one entry per os.listdir item: none when the folder has no
messages.json, some r when the file exists and reading it gives r). -/
def detect_my_email (folders : List (Option FileRead)) : Option PyVal :=
  match folders.foldl tallyFolder [] with
  | [] => Option.none
  | (k, c) :: rest => Option.some (maxKeyAux k c rest)

/-- A well-formed message from b@x.com, used by the C3 counterexample. -/
def bobMsg : PyVal :=
  PyVal.pydict [(lit "creator", PyVal.pydict
    [(lit "email", PyVal.pystr (lit "b@x.com")),
     (lit "name", PyVal.pystr (lit "Bob"))])]

/-- One conversation folder as seen by the catalog-building step of main:
its name, its loaded message list (Option.none when messages.json is
absent; the claims about this step presuppose present files load without
raising), and the result of get_space_title (Option.none when
group_info.json is missing, unreadable, or has no usable "name"). -/
structure Folder where
  name : Str
  messagesFile : Option (List Msg)
  groupTitle : Option Str

/-- Decimal rendering of a Nat, as interpolated by an f-string. -/
def natToStr (n : Nat) : Str := natDigits n

/-- Python format spec \x7bx:<45\x7d: left-justify to 45 characters
(character count, not display columns). -/
def ljust (s : Str) (w : Nat) : Str := s ++ List.replicate (w - s.length) ' '

/-- The " (📌 N)" annotation appended to a label when pinned_count > 0. -/
def pinTag (label : Str) (pc : Nat) : Str :=
  if 0 < pc then label ++ lit " (📌 " ++ natToStr pc ++ [')'] else label

/-- A catalog line f"DM  \x7bname:<45\x7d | \x7bfolder\x7d". -/
def dmEntry (label folderName : Str) : Str :=
  lit "DM  " ++ ljust label 45 ++ lit " | " ++ folderName

/-- A catalog line f"SP  \x7btitle:<45\x7d | \x7bfolder\x7d". -/
def spEntry (label folderName : Str) : Str :=
  lit "SP  " ++ ljust label 45 ++ lit " | " ++ folderName

/-- get_space_title(folder) or folder: Python's "or" falls back to the
folder name when the title is None or empty. -/
def spaceTitleOrName (f : Folder) : Str :=
  match f.groupTitle with
  | Option.some t => if t.isEmpty then f.name else t
  | Option.none => f.name

/-- The body of main's catalog loop for one folder, with the category flags
(pinned_mode, show_dm, show_space) explicit; returns the entries the folder
contributes (at most one). -/
def catalogFolder (pinnedMode showDm showSpace : Bool) (my : Str) (f : Folder) :
    List Str :=
  match f.messagesFile with
  | Option.none => []
  | Option.some msgs =>
    let pc := count_pinned msgs
    if pinnedMode && pc == 0 then []
    else if (showDm || pinnedMode) && List.isPrefixOf (lit "DM") f.name then
      [dmEntry (pinTag (get_dm_participant msgs my) pc) f.name]
    else if (showSpace || pinnedMode) && List.isPrefixOf (lit "Space") f.name then
      [spEntry (pinTag (spaceTitleOrName f) pc) f.name]
    else []

/-- Step 5 of main: the catalog built over the sorted folder listing. -/
def buildEntries (pinnedMode showDm showSpace : Bool) (my : Str)
    (folders : List Folder) : List Str :=
  folders.flatMap (catalogFolder pinnedMode showDm showSpace my)

/-- Under PINNED_ONLY, whether a folder survives the catalog loop: it has a
messages file, a non-zero pinned count, and a DM or Space name. -/
def pinnedKeep (f : Folder) : Bool :=
  f.messagesFile.isSome &&
    count_pinned (f.messagesFile.getD []) != 0 &&
    (List.isPrefixOf (lit "DM") f.name || List.isPrefixOf (lit "Space") f.name)

/-- The entry a surviving folder contributes under PINNED_ONLY. -/
def pinnedEntry (my : Str) (f : Folder) : Str :=
  let msgs := f.messagesFile.getD []
  let pc := count_pinned msgs
  if List.isPrefixOf (lit "DM") f.name then
    dmEntry (pinTag (get_dm_participant msgs my) pc) f.name
  else
    spEntry (pinTag (spaceTitleOrName f) pc) f.name

/-- A concrete pinned message, used by witnesses. -/
def msgPinned : Msg :=
  ⟨Option.some ⟨Option.some (lit "b@x.com"), Option.some (lit "Bob")⟩,
   Option.some (lit "note"), Option.none,
   Option.some [⟨Option.some (lit "PINNED")⟩]⟩

/-- A conversation folder without pinned messages. -/
def folderNoPin : Folder := ⟨lit "DM_1", Option.some [msgBob], Option.none⟩

/-- A conversation folder with two pinned messages. -/
def folderPinned : Folder :=
  ⟨lit "DM_2", Option.some [msgPinned, msgPinned], Option.none⟩

/-- Python str.split(sep) with a one-character separator: no collapsing,
empty pieces kept, split("") on the empty string giving [""]. -/
def pySplitChar (sep : Char) : Str → List Str
  | [] => [[]]
  | c :: cs =>
    let r := pySplitChar sep cs
    if c == sep then [] :: r
    else
      match r with
      | [] => [[c]]
      | h :: t => (c :: h) :: t

/-- Python str.strip(): remove leading and trailing whitespace. -/
def pyStrip (s : Str) : Str :=
  ((s.dropWhile isPyWs).reverse.dropWhile isPyWs).reverse

/-- Step 6 of main: folder = selected.split("|")[-1].strip(). -/
def selectedFolder (s : Str) : Str :=
  pyStrip ((pySplitChar '|' s).getLastD [])

/-- str.expandtabs(8), as performed by textwrap._munge_whitespace: a tab
advances the column to the next multiple of 8; newline and carriage return
reset the column. -/
def expandtabsAux : Nat → Str → Str
  | _, [] => []
  | col, c :: cs =>
    if c == '\t' then
      List.replicate (8 - col % 8) ' ' ++ expandtabsAux (col + (8 - col % 8)) cs
    else if c == '\n' || c == '\r' then c :: expandtabsAux 0 cs
    else c :: expandtabsAux (col + 1) cs

/-- textwrap._munge_whitespace with the default expand_tabs and
replace_whitespace: expand tabs, then replace each character of textwrap's
_whitespace set (the same six ASCII characters as isPyWs) by a space. -/
def munge (s : Str) : Str :=
  (expandtabsAux 0 s).map (fun c => if isPyWs c then ' ' else c)

/-- Regex \w restricted to ASCII (no non-ASCII word characters appear in
this development). -/
def isWordChar (c : Char) : Bool := c.isAlphanum || c == '_'

/-- Regex [^\d\W]: a word character that is not a digit. -/
def isRegexLetter (c : Char) : Bool := isWordChar c && !c.isDigit

/-- Regex [\w!"'&.,?] (textwrap's word_punct class). -/
def isWordPunct (c : Char) : Bool :=
  isWordChar c || c == '!' || c == '"' || c == '\'' || c == '&' || c == '.' ||
    c == ',' || c == '?'

/-- First character of the reversed already-consumed input ('\x00' at the
start of the string; the NUL character is in no character class used). -/
def headD0 (s : Str) : Char := s.headD '\x00'

/-- Lookbehind of wordsep_re's hyphenated-word rule, evaluated just after
consuming the hyphen: (?<=[letter][letter]-) or (?<=[letter]-[letter]-),
over the reversed consumed input (which excludes the hyphen itself). -/
def hyphenLookbehindRev : Str → Bool
  | a :: b :: rest =>
    (isRegexLetter a && isRegexLetter b) ||
    (isRegexLetter a && b == '-' &&
      (match rest with | d :: _ => isRegexLetter d | [] => false))
  | _ => false

/-- Lookahead of wordsep_re's hyphenated-word rule after the hyphen:
(?=[letter]-?[letter]). -/
def hyphenLookaheadList : Str → Bool
  | a :: rest =>
    isRegexLetter a &&
      (match rest with
       | b :: rest2 =>
         isRegexLetter b ||
           (b == '-' && (match rest2 with | d :: _ => isRegexLetter d | [] => false))
       | [] => false)
  | [] => false

/-- The lookahead (?=-\x7b2,\x7d\w): a run of at least two hyphens followed
by a word character (with backtracking, such a match exists iff the full
leading run has length at least two and is followed by a word character). -/
def emdashAhead (rest : Str) : Bool :=
  let run := rest.takeWhile (fun c => c == '-')
  2 ≤ run.length &&
    (match rest.drop run.length with | c :: _ => isWordChar c | [] => false)

/-- The word alternative of wordsep_re ([^\s]+? followed by one of three
terminators, tried in the regex's order at each non-greedy extension):
a breakable hyphen (consumed, with its lookbehind and lookahead), the end of
the word (whitespace or end of input), or an em-dash run ahead after word
punctuation.  consumedRev is the reversed input before the current position
(for the lookbehinds), wordRev the reversed word consumed so far. -/
def wordScan : Str → Str → Str → Str × Str
  | _, wordRev, [] => (wordRev.reverse, [])
  | consumedRev, wordRev, c :: cs =>
    if isPyWs c then (wordRev.reverse, c :: cs)
    else if c == '-' && hyphenLookbehindRev consumedRev && hyphenLookaheadList cs then
      ((c :: wordRev).reverse, cs)
    else if isWordPunct (headD0 consumedRev) && emdashAhead (c :: cs) then
      (wordRev.reverse, c :: cs)
    else wordScan (c :: consumedRev) (c :: wordRev) cs

/-- The scan of wordsep_re over the munged text (re.split with a capturing
pattern whose matches tile the string; empty spans are filtered by _split):
a whitespace run, an em-dash run between word punctuation and a word
character, or a word chunk delimited by wordScan.  The fuel passed by
splitChunks is sufficient since every chunk is non-empty. -/
def splitAux : Nat → Str → Str → List Str
  | 0, _, _ => []
  | _ + 1, _, [] => []
  | fuel + 1, consumedRev, c :: cs =>
    if isPyWs c then
      let run := (c :: cs).takeWhile isPyWs
      run :: splitAux fuel (run.reverse ++ consumedRev) ((c :: cs).dropWhile isPyWs)
    else if isWordPunct (headD0 consumedRev) && emdashAhead (c :: cs) then
      let run := (c :: cs).takeWhile (fun x => x == '-')
      run :: splitAux fuel (run.reverse ++ consumedRev)
        ((c :: cs).dropWhile (fun x => x == '-'))
    else
      match wordScan (c :: consumedRev) [c] cs with
      | (w, rest) => w :: splitAux fuel (w.reverse ++ consumedRev) rest

/-- textwrap's _split on the munged text. -/
def splitChunks (s : Str) : List Str := splitAux (s.length + 1) [] s

/-- Whether a chunk is whitespace-only (chunk.strip() == ''). -/
def isBlankChunk (s : Str) : Bool := s.all isPyWs

/-- The inner greedy loop of _wrap_chunks: move chunks onto the current line
while they fit; returns (current line, its length, remaining chunks). -/
def greedyFill (width : Nat) : List Str → Nat → List Str → List Str × Nat × List Str
  | acc, len, [] => (acc.reverse, len, [])
  | acc, len, c :: cs =>
    if len + c.length ≤ width then greedyFill width (c :: acc) (len + c.length) cs
    else (acc.reverse, len, c :: cs)

/-- Index of the last hyphen of a string, if any (str.rfind). -/
def rfindHyphen (s : Str) : Option Nat :=
  match s.reverse.findIdx? (fun c => c == '-') with
  | Option.some i => Option.some (s.length - 1 - i)
  | Option.none => Option.none

/-- _handle_long_word with the default break_long_words and break_on_hyphens:
split the head chunk at space_left (width - cur_len, or 1 when width < 1),
preferring a break just after the last hyphen of chunk[:space_left] when the
chunk is longer than space_left, the hyphen is preceded by at least one
non-hyphen, and its index is positive; returns (piece for the current line,
remainder left in the queue). -/
def hypPos (spaceLeft : Nat) (chunk : Str) : Nat :=
  (rfindHyphen (chunk.take spaceLeft)).getD 0

def longWordEnd (spaceLeft : Nat) (chunk : Str) : Nat :=
  if spaceLeft < chunk.length then
    if 0 < hypPos spaceLeft chunk &&
        (chunk.take (hypPos spaceLeft chunk)).any (fun c => c != '-') then
      hypPos spaceLeft chunk + 1
    else spaceLeft
  else spaceLeft

/-- The split position of _handle_long_word (see longWordEnd), applied:
(piece for the current line, remainder left in the queue). -/
def handleLongWord (width curLen : Nat) (chunk : Str) : Str × Str :=
  let spaceLeft := if width < 1 then 1 else width - curLen
  (chunk.take (longWordEnd spaceLeft chunk), chunk.drop (longWordEnd spaceLeft chunk))

/-- Drop the trailing piece of the current line when it is blank (the single
drop_whitespace check after the greedy fill). -/
def dropTrailBlank (curLine : List Str) : List Str :=
  match curLine.getLast? with
  | Option.some last => if isBlankChunk last then curLine.dropLast else curLine
  | Option.none => curLine

/-- One iteration of _wrap_chunks' outer loop after the leading-blank drop:
fill the line greedily, break a head chunk longer than the width via
_handle_long_word, drop a trailing blank piece; returns (the pieces of the
emitted line, the remaining chunks). -/
def wrapStep (width : Nat) (chunks : List Str) : List Str × List Str :=
  match greedyFill width [] 0 chunks with
  | (curLine1, curLen1, rest1) =>
    match rest1 with
    | [] => (dropTrailBlank curLine1, [])
    | c :: cs =>
      if width < c.length then
        (dropTrailBlank (curLine1 ++ [(handleLongWord width curLen1 c).1]),
         (handleLongWord width curLen1 c).2 :: cs)
      else (dropTrailBlank curLine1, c :: cs)

/-- The outer loop of _wrap_chunks (empty indents, drop_whitespace true,
max_lines None), with explicit fuel: drop a leading blank chunk once a line
has been emitted, run one wrapStep, and emit the line if it has any piece.
The fuel passed by wrapPy is sufficient: every iteration consumes at least
one character or chunk. -/
def wrapChunksAux (width : Nat) : Nat → List Str → List Str → List Str
  | 0, _, lines => lines.reverse
  | _ + 1, [], lines => lines.reverse
  | fuel + 1, chunk0 :: rest0, lines =>
    match wrapStep width
      (if isBlankChunk chunk0 && !lines.isEmpty then rest0 else chunk0 :: rest0) with
    | (curLine3, rest2) =>
      wrapChunksAux width fuel rest2
        (if curLine3.isEmpty then lines else curLine3.flatten :: lines)

/-- textwrap.wrap(text, width) with all-default options, as called by
draw_bubble.  (Python raises ValueError for width ≤ 0; the claims about
wrapping assume width ≥ 1.) -/
def wrapPy (width : Nat) (text : Str) : List Str :=
  let chunks := splitChunks (munge text)
  wrapChunksAux width ((chunks.map List.length).sum + chunks.length + 1) chunks []

/-- draw_bubble from the source, with TERMINAL_WIDTH and MAX_BUBBLE_WIDTH
threaded as tw and w; returns the list of lines that the source joins with
newlines (for right alignment the source re-splits the joined text and
prepends the same space padding to every line, which equals the per-line map
below since no line contains a newline; a negative Python padding yields the
empty prefix, as does truncated Nat subtraction). -/
def draw_bubble (tw w : Nat) (text : Str) (alignRight : Bool) : List Str :=
  let wrapped := wrapPy w text
  let top := '┌' :: (List.replicate (w + 2) '─' ++ ['┐'])
  let bottom := '└' :: (List.replicate (w + 2) '─' ++ ['┘'])
  let bubbleLines :=
    top :: (wrapped.map (fun line =>
      '│' :: ' ' :: (pad_text line (Int.ofNat w) ++ [' ', '│']))) ++ [bottom]
  if alignRight then
    bubbleLines.map (fun l => List.replicate (tw - (w + 4)) ' ' ++ l)
  else bubbleLines

/-- Maximal whitespace-separated words of a string (the reference notion used
to state the wrapping claims). -/
def wordsOfAux : Str → Str → List Str
  | [], acc => if acc.isEmpty then [] else [acc.reverse]
  | c :: cs, acc =>
    if isPyWs c then
      if acc.isEmpty then wordsOfAux cs [] else acc.reverse :: wordsOfAux cs []
    else wordsOfAux cs (c :: acc)

/-- Maximal whitespace-separated words of a string. -/
def wordsOf (s : Str) : List Str := wordsOfAux s []

/-- Python str.rjust(w): left-pad with spaces to w characters (character
count). -/
def rjust (s : Str) (w : Nat) : Str := List.replicate (w - s.length) ' ' ++ s

/-- Join lines with newlines ("\n".join). -/
def joinNl : List Str → Str
  | [] => []
  | [l] => l
  | l :: ls => l ++ '\n' :: joinNl ls

/-- The header line of one message in format_chat: optional "[PINNED] "
icon, "You" or the sender name, a bullet, the cleaned date; right-justified
to the terminal width for the viewer's own messages. -/
def msgHeader (tw : Nat) (my : Str) (m : Msg) : Str :=
  let mine := msgEmail m == Option.some my
  let sender := if mine then lit "You" else msgName m
  let pinIcon := if is_pinned m then lit "[PINNED] " else []
  let header := pinIcon ++ sender ++ lit " • " ++ clean_date (m.created_date.getD [])
  if mine then rjust header tw else header

/-- The output-list contribution of one message in format_chat's loop: empty
when the stripped text is empty and the message is not pinned; otherwise the
"\n"-prefixed header and the bubble (drawn from the placeholder text for a
pinned non-text message). -/
def renderMsgBlocks (tw w : Nat) (my : Str) (m : Msg) : List Str :=
  let text := pyStrip (m.text.getD [])
  if text.isEmpty && !is_pinned m then []
  else
    ['\n' :: msgHeader tw my m,
     joinNl (draw_bubble tw w
       (if text.isEmpty then lit "[Pinned message (non-text)]" else text)
       (msgEmail m == Option.some my))]

/-- format_chat from the source: banner followed by the per-message blocks,
joined with newlines. -/
def format_chat (tw w : Nat) (msgs : List Msg) (my : Str) (pinnedOnly : Bool) : Str :=
  joinNl ((if pinnedOnly then lit "📌 Showing ONLY pinned messages\n"
    else lit "Navigation:\n   /PINNED → search pinned\n   q       → quit pager\n") ::
    msgs.flatMap (renderMsgBlocks tw w my))

/-- Total size of a chunk queue: characters plus chunk count (the
termination measure of the outer _wrap_chunks loop). -/
def chunksMeasure (chunks : List Str) : Nat :=
  (chunks.map List.length).sum + chunks.length

/-- The word chunks (those containing a non-whitespace character). -/
def nonBlank (chunks : List Str) : List Str :=
  chunks.filter (fun c => !isBlankChunk c)

/-- Structural facts about a list of chunk pieces: every piece is non-empty
and either all-whitespace or whitespace-free, and no two adjacent pieces are
both whitespace-free. -/
def PiecesOk (pieces : List Str) : Prop :=
  (∀ p ∈ pieces, p ≠ [] ∧ (isBlankChunk p = true ∨ p.all (fun x => !isPyWs x) = true)) ∧
  List.Chain' (fun a b => isBlankChunk a = true ∨ isBlankChunk b = true) pieces

/-- Invariant of the chunk queue in _wrap_chunks for hyphen-free input:
PiecesOk plus the bound that whitespace-free chunks fit the width. -/
def ChunkInv (width : Nat) (chunks : List Str) : Prop :=
  PiecesOk chunks ∧ ∀ c ∈ chunks, isBlankChunk c = false → c.length ≤ width

/-- Characters from which the wrapping claims' restricted texts are drawn:
printable ASCII without the hyphen (so that textwrap's hyphen rules cannot
apply and every character has display width 1). -/
def simpleChar (c : Char) : Bool :=
  (0x20 ≤ c.toNat && c.toNat ≤ 0x7e) && c != '-'

/-- A text of printable, non-hyphen ASCII characters. -/
def simpleText (s : Str) : Bool := s.all simpleChar

theorem printable_append (s t : Str) :
    printable (s ++ t) = (printable s && printable t) := by
  simp [printable, List.all_append]

theorem printable_replicate_space (k : Nat) :
    printable (List.replicate k ' ') = true := by
  induction k with
  | zero => rfl
  | succ n ih =>
    simp only [printable, List.replicate_succ, List.all_cons, Bool.and_eq_true] at ih ⊢
    exact ⟨by decide, ih⟩

theorem charWidth_nonneg_of_ne (c : Char) (h : charWidth c ≠ -1) :
    0 ≤ charWidth c := by
  unfold charWidth at h ⊢
  split
  · simp_all
  · split
    · norm_num
    · split
      · norm_num
      · norm_num

theorem wcswidth_nonneg_iff (s : Str) : 0 ≤ wcswidth s ↔ printable s = true := by
  constructor
  · intro h
    by_contra hp
    simp only [wcswidth] at h
    rw [if_neg (by simpa using hp)] at h
    omega
  · intro hp
    simp only [wcswidth, hp, if_pos]
    apply List.sum_nonneg
    intro x hx
    rcases List.mem_map.mp hx with ⟨c, hc, rfl⟩
    apply charWidth_nonneg_of_ne
    have := (List.all_eq_true.mp hp) c hc
    simpa using this

theorem wcswidth_append_of_printable (s t : Str)
    (hs : printable s = true) (ht : printable t = true) :
    wcswidth (s ++ t) = wcswidth s + wcswidth t := by
  simp [wcswidth, printable_append, hs, ht]

theorem sum_map_charWidth_replicate_space (k : Nat) :
    ((List.replicate k ' ').map charWidth).sum = (k : Int) := by
  induction k with
  | zero => rfl
  | succ n ih =>
    rw [List.replicate_succ, List.map_cons, List.sum_cons, ih,
      show charWidth ' ' = 1 from by decide]
    push_cast
    ring

theorem wcswidth_replicate_space (k : Nat) :
    wcswidth (List.replicate k ' ') = (k : Int) := by
  rw [wcswidth, if_pos (printable_replicate_space k), sum_map_charWidth_replicate_space]

theorem wcswidth_pad_text_of_printable (s : Str) (w : Int)
    (hs : printable s = true) (hw : wcswidth s ≤ w) :
    wcswidth (pad_text s w) = w := by
  rw [pad_text]
  rw [wcswidth_append_of_printable s _ hs (printable_replicate_space _),
    wcswidth_replicate_space]
  have hnn : (0 : Int) ≤ w - wcswidth s := by omega
  rw [max_eq_right hnn, Int.toNat_of_nonneg hnn]
  omega

theorem pad_text_of_width_le (s : Str) (w : Int) (hw : w ≤ wcswidth s) :
    pad_text s w = s := by
  rw [pad_text]
  have : max 0 (w - wcswidth s) = 0 := by omega
  simp [this]

/-- C5 counterexample: the claim quantifies over every string, but for a
string containing a non-printable character (here U+0001) wcswidth is -1, so
padding overshoots and is not idempotent: wcswidth('\x01') = -1 ≤ 2, yet
wcswidth(pad('\x01', 2)) = -1 < 2 and pad(pad('\x01', 2), 2) ≠ pad('\x01', 2)
(each application appends three more spaces). -/
theorem pad_text_c5_counterexample :
    wcswidth ['\x01'] ≤ 2 ∧
    wcswidth (pad_text ['\x01'] 2) < 2 ∧
    pad_text (pad_text ['\x01'] 2) 2 ≠ pad_text ['\x01'] 2 := by
  refine ⟨by decide, by decide, ?_⟩
  decide

/-- C5 (amended): pad_text only ever appends spaces and never truncates, and
it returns s unchanged when wcswidth(s) ≥ w; for strings made of printable
characters (wcswidth ≥ 0) padding reaches display width at least w whenever
wcswidth(s) ≤ w (it reaches exactly w), and pad_text is idempotent.  The
original claim fails for strings containing non-printable characters, where
wcswidth returns -1. -/
theorem pad_text_c5_amended (s : Str) (w : Int) :
    (∃ k, pad_text s w = s ++ List.replicate k ' ') ∧
    (w ≤ wcswidth s → pad_text s w = s) ∧
    (0 ≤ wcswidth s →
      (wcswidth s ≤ w → w ≤ wcswidth (pad_text s w)) ∧
      pad_text (pad_text s w) w = pad_text s w) := by
  refine ⟨⟨(max 0 (w - wcswidth s)).toNat, rfl⟩, pad_text_of_width_le s w, ?_⟩
  intro hnn
  have hp : printable s = true := (wcswidth_nonneg_iff s).mp hnn
  constructor
  · intro hle
    rw [wcswidth_pad_text_of_printable s w hp hle]
  · rcases le_or_lt (wcswidth s) w with hle | hlt
    · have h1 : wcswidth (pad_text s w) = w := wcswidth_pad_text_of_printable s w hp hle
      exact pad_text_of_width_le _ w (le_of_eq h1.symm)
    · rw [pad_text_of_width_le s w (le_of_lt hlt), pad_text_of_width_le s w (le_of_lt hlt)]

/-- Witness for the amended C5 theorem at a concrete printable input. -/
theorem pad_text_c5_amended_witness :
    (0 : Int) ≤ wcswidth (lit "ab") ∧ wcswidth (lit "ab") ≤ 5 ∧
    (5 : Int) ≤ wcswidth (pad_text (lit "ab") 5) ∧
    pad_text (pad_text (lit "ab") 5) 5 = pad_text (lit "ab") 5 := by
  have h := pad_text_c5_amended (lit "ab") 5
  exact ⟨by decide, by decide, (h.2.2 (by decide)).1 (by decide), (h.2.2 (by decide)).2⟩

/-- C1 counterexample: an absent/unreadable/invalid-JSON file makes
load_messages raise (the open/json.load exception propagates) instead of
returning the empty sequence; moreover an object whose "messages" field is
not a list is returned as-is, not replaced by the empty sequence. -/
theorem load_messages_c1_counterexample :
    load_messages Option.none = Except.error () ∧
    load_messages Option.none ≠ Except.ok (PyVal.pylist []) ∧
    load_messages (Option.some (PyVal.pydict [(lit "messages", PyVal.pyint 5)])) =
      Except.ok (PyVal.pyint 5) := by
  refine ⟨rfl, by simp [load_messages], rfl⟩

/-- C1 (amended): for a successfully read and parsed record, load_messages
returns the value of the "messages" entry when the record is an object
containing one, the record itself when it is a list, and the empty sequence
in every other parsed case; but when the file is absent, unreadable or not
valid JSON, the exception raised by open/json.load propagates to the caller
instead of yielding the empty sequence. -/
theorem load_messages_c1_amended (m : List (Str × PyVal)) (xs : List PyVal) (d : PyVal) :
    (∀ v, dictGet m (lit "messages") = Option.some v →
      load_messages (Option.some (PyVal.pydict m)) = Except.ok v) ∧
    (dictGet m (lit "messages") = Option.none →
      load_messages (Option.some (PyVal.pydict m)) = Except.ok (PyVal.pylist [])) ∧
    load_messages (Option.some (PyVal.pylist xs)) = Except.ok (PyVal.pylist xs) ∧
    ((∀ kvs, d ≠ PyVal.pydict kvs) → (∀ l, d ≠ PyVal.pylist l) →
      load_messages (Option.some d) = Except.ok (PyVal.pylist [])) ∧
    load_messages Option.none = Except.error () := by
  refine ⟨?_, ?_, rfl, ?_, rfl⟩
  · intro v hv
    simp [load_messages, hv]
  · intro hv
    simp [load_messages, hv]
  · intro hd hl
    cases d with
    | pynone => rfl
    | pybool b => rfl
    | pyint n => rfl
    | pystr s => rfl
    | pylist l => exact absurd rfl (hl l)
    | pydict kvs => exact absurd rfl (hd kvs)

/-- Witness for the amended C1 theorem at concrete inputs. -/
theorem load_messages_c1_amended_witness :
    load_messages (Option.some (PyVal.pydict
      [(lit "messages", PyVal.pylist [PyVal.pyint 1])])) =
      Except.ok (PyVal.pylist [PyVal.pyint 1]) ∧
    load_messages (Option.some (PyVal.pydict [])) = Except.ok (PyVal.pylist []) ∧
    load_messages (Option.some (PyVal.pyint 7)) = Except.ok (PyVal.pylist []) := by
  have h := load_messages_c1_amended
    [(lit "messages", PyVal.pylist [PyVal.pyint 1])] ([] : List PyVal) (PyVal.pyint 7)
  refine ⟨h.1 (PyVal.pylist [PyVal.pyint 1]) rfl, ?_, ?_⟩
  · exact (load_messages_c1_amended [] [] (PyVal.pyint 7)).2.1 rfl
  · exact h.2.2.2.1 (by intro kvs h2; cases h2) (by intro l h2; cases h2)

theorem formatCleanDate_ne_nil (y m d hh mm : Nat) :
    formatCleanDate y m d hh mm ≠ [] := by
  unfold formatCleanDate
  cases natDigits y <;> simp

/-- C4 (confirmed): clean_date is total; it returns the input reformatted via
"%Y-%m-%d %H:%M" exactly when the input parses as
"%A, %d %B %Y at %H:%M:%S UTC" (modelled by strptimeTakeout), returns the
input unchanged otherwise, and never returns an empty string for a non-empty
input. -/
theorem clean_date_c4 (s : Str) :
    (∀ y m d hh mm ss, strptimeTakeout s = Option.some (y, m, d, hh, mm, ss) →
      clean_date s = formatCleanDate y m d hh mm) ∧
    (strptimeTakeout s = Option.none → clean_date s = s) ∧
    (s ≠ [] → clean_date s ≠ []) := by
  refine ⟨?_, ?_, ?_⟩
  · intro y m d hh mm ss h
    simp [clean_date, h]
  · intro h
    simp [clean_date, h]
  · intro hs
    unfold clean_date
    cases h : strptimeTakeout s with
    | none => exact hs
    | some r =>
      obtain ⟨y, m, d, hh, mm, ss⟩ := r
      exact formatCleanDate_ne_nil y m d hh mm

/-- Witness for the C4 theorem at concrete parsing and non-parsing inputs. -/
theorem clean_date_c4_witness :
    clean_date (lit "Monday, 06 January 2020 at 23:59:59 UTC") = lit "2020-01-06 23:59" ∧
    clean_date (lit "hello") = lit "hello" ∧
    clean_date (lit "Monday, 30 February 2020 at 23:59:59 UTC") =
      lit "Monday, 30 February 2020 at 23:59:59 UTC" := by
  refine ⟨?_, ?_, ?_⟩
  · exact ((clean_date_c4 _).1 2020 1 6 23 59 59 (by decide)).trans (by decide)
  · exact (clean_date_c4 _).2.1 (by decide)
  · exact (clean_date_c4 _).2.1 (by decide)

theorem gdp_eq_find (msgs : List Msg) (my : Str) :
    get_dm_participant msgs my =
      match msgs.find? (dmCandidate my) with
      | Option.some m => msgName m
      | Option.none => lit "Deleted User" := by
  induction msgs with
  | nil => rfl
  | cons m ms ih =>
    rw [List.find?_cons]
    by_cases hc : dmCandidate my m = true
    · have he : (msgEmail m == Option.some my) = false := by
        rcases Bool.and_eq_true_iff.mp hc with ⟨h1, _⟩
        simpa using h1
      have hn : (!(msgName m).isEmpty && msgName m != lit "Unknown") = true := by
        rcases Bool.and_eq_true_iff.mp hc with ⟨_, h2⟩
        exact h2
      simp only [get_dm_participant, he, hn, hc]
      rfl
    · have hc' : dmCandidate my m = false := Bool.eq_false_iff.mpr hc
      simp only [hc']
      by_cases he : (msgEmail m == Option.some my) = true
      · simp only [get_dm_participant, he, if_pos, if_true]
        exact ih
      · have he' : (msgEmail m == Option.some my) = false := Bool.eq_false_iff.mpr he
        have hn : (!(msgName m).isEmpty && msgName m != lit "Unknown") = false := by
          unfold dmCandidate at hc'
          rw [he'] at hc'
          simpa using hc'
        simp only [get_dm_participant, he', hn, Bool.false_eq_true, if_false]
        exact ih

/-- C6 (confirmed): get_dm_participant returns the name of the first message
in file order whose sender identity differs from the viewer identity and
whose name is non-empty and not the "Unknown" sentinel; when no such message
exists (in particular for an empty list) it returns "Deleted User". -/
theorem get_dm_participant_c6 (msgs : List Msg) (my : Str) :
    get_dm_participant msgs my =
      match msgs.find? (dmCandidate my) with
      | Option.some m => msgName m
      | Option.none => lit "Deleted User" := gdp_eq_find msgs my

/-- C9 (confirmed): the result of get_dm_participant is never the empty
string and never "Unknown"; it is either the name of some message whose
sender identity differs from the viewer's (that name being non-empty and not
"Unknown") or exactly the sentinel "Deleted User". -/
theorem get_dm_participant_c9 (msgs : List Msg) (my : Str) :
    get_dm_participant msgs my ≠ [] ∧
    get_dm_participant msgs my ≠ lit "Unknown" ∧
    ((∃ m ∈ msgs, ¬(msgEmail m = Option.some my) ∧
        get_dm_participant msgs my = msgName m) ∨
      get_dm_participant msgs my = lit "Deleted User") := by
  rw [gdp_eq_find]
  cases hf : msgs.find? (dmCandidate my) with
  | none => exact ⟨by decide, by decide, Or.inr rfl⟩
  | some m =>
    have hm : dmCandidate my m = true := List.find?_some hf
    have hmem : m ∈ msgs := List.mem_of_find?_eq_some hf
    rcases Bool.and_eq_true_iff.mp hm with ⟨h1, h2⟩
    rcases Bool.and_eq_true_iff.mp h2 with ⟨h3, h4⟩
    have hne : msgName m ≠ [] := by
      intro h
      rw [h] at h3
      simp at h3
    have hnu : msgName m ≠ lit "Unknown" := by
      intro h
      rw [h] at h4
      simp at h4
    have hemail : ¬(msgEmail m = Option.some my) := by
      intro h
      rw [h] at h1
      simp at h1
    exact ⟨hne, hnu, Or.inl ⟨m, hmem, hemail, rfl⟩⟩

/-- Witness for the C6 theorem at the spec's scenario. -/
theorem get_dm_participant_c6_witness :
    get_dm_participant [msgAlice, msgBob] (lit "a@x.com") = lit "Bob" ∧
    get_dm_participant [] (lit "a@x.com") = lit "Deleted User" := by
  refine ⟨(get_dm_participant_c6 [msgAlice, msgBob] (lit "a@x.com")).trans
    (by decide), ?_⟩
  exact (get_dm_participant_c6 [] (lit "a@x.com")).trans rfl

/-- Witness for the C9 theorem at a concrete message list. -/
theorem get_dm_participant_c9_witness :
    get_dm_participant [msgAlice, msgBob] (lit "a@x.com") ≠ [] ∧
    get_dm_participant [msgAlice, msgBob] (lit "a@x.com") ≠ lit "Unknown" := by
  have h := get_dm_participant_c9 [msgAlice, msgBob] (lit "a@x.com")
  exact ⟨h.1, h.2.1⟩

/-- C3 counterexample: a conversation whose messages file is a bare list is
not scanned at all — data.get("messages", []) raises AttributeError on a
list and the bare except skips the folder — so auto-detection over an
archive consisting of that single conversation observes no identity and
returns no candidate, although the same messages wrapped in an object are
scanned and yield b@x.com. -/
theorem detect_my_email_c3_counterexample :
    detect_my_email [Option.some (Option.some (PyVal.pylist [bobMsg]))] =
      Option.none ∧
    detect_my_email [Option.some (Option.some (PyVal.pydict
      [(lit "messages", PyVal.pylist [bobMsg])]))] =
      Option.some (PyVal.pystr (lit "b@x.com")) := ⟨rfl, rfl⟩

theorem maxKeyAux_spec (rest : List (PyVal × Nat)) :
    ∀ best bc, ∃ c,
      ((maxKeyAux best bc rest = best ∧ c = bc) ∨ (maxKeyAux best bc rest, c) ∈ rest) ∧
      bc ≤ c ∧ ∀ p ∈ rest, p.2 ≤ c := by
  induction rest with
  | nil =>
    intro best bc
    exact ⟨bc, Or.inl ⟨rfl, rfl⟩, le_refl bc, by simp⟩
  | cons p rs ih =>
    intro best bc
    obtain ⟨k, c0⟩ := p
    by_cases h : bc < c0
    · obtain ⟨c, hc, hle, hall⟩ := ih k c0
      refine ⟨c, ?_, le_of_lt (lt_of_lt_of_le h hle), ?_⟩
      · rcases hc with ⟨heq, rfl⟩ | hmem
        · rw [show maxKeyAux best bc ((k, c) :: rs) = maxKeyAux k c rs from by
            simp [maxKeyAux, h], heq]
          exact Or.inr (List.mem_cons_self _ _)
        · rw [show maxKeyAux best bc ((k, c0) :: rs) = maxKeyAux k c0 rs from by
            simp [maxKeyAux, h]]
          exact Or.inr (List.mem_cons_of_mem _ hmem)
      · intro q hq
        rcases List.mem_cons.mp hq with rfl | hq'
        · exact hle
        · exact hall q hq'
    · obtain ⟨c, hc, hle, hall⟩ := ih best bc
      refine ⟨c, ?_, hle, ?_⟩
      · rw [show maxKeyAux best bc ((k, c0) :: rs) = maxKeyAux best bc rs from by
          simp [maxKeyAux, h]]
        rcases hc with ⟨heq, rfl⟩ | hmem
        · exact Or.inl ⟨heq, rfl⟩
        · exact Or.inr (List.mem_cons_of_mem _ hmem)
      · intro q hq
        rcases List.mem_cons.mp hq with rfl | hq'
        · exact le_trans (le_of_not_lt h) hle
        · exact hall q hq'

/-- C3 (amended): auto-detection scans, for every conversation under the
archive root whose messages file parses to an object, up to the first 200
entries of its "messages" list, tallying truthy sender emails by frequency;
a conversation whose file is a bare list contributes nothing (the
AttributeError from data.get is swallowed and the folder skipped, contrary
to the original claim); the result is none exactly when no identity was
observed, and otherwise an identity of maximal frequency across the whole
archive (the first such in first-seen order). -/
theorem detect_my_email_c3_amended (folders : List (Option FileRead)) :
    (∀ counts ms, tallyFolder counts (Option.some (Option.some (PyVal.pylist ms)))
      = counts) ∧
    (∀ counts m msgs,
      dictGet m (lit "messages") = Option.some (PyVal.pylist msgs) →
      tallyFolder counts (Option.some (Option.some (PyVal.pydict m)))
        = tallyMessages counts (msgs.take 200)) ∧
    (detect_my_email folders = Option.none ↔ folders.foldl tallyFolder [] = []) ∧
    (∀ k, detect_my_email folders = Option.some k →
      ∃ c, (k, c) ∈ folders.foldl tallyFolder [] ∧
        ∀ p ∈ folders.foldl tallyFolder [], p.2 ≤ c) := by
  refine ⟨fun counts ms => rfl, ?_, ?_, ?_⟩
  · intro counts m msgs h
    simp [tallyFolder, h]
  · unfold detect_my_email
    cases folders.foldl tallyFolder [] with
    | nil => simp
    | cons p rest => simp
  · intro k hk
    unfold detect_my_email at hk
    cases htally : folders.foldl tallyFolder [] with
    | nil => rw [htally] at hk; cases hk
    | cons p rest =>
      rw [htally] at hk
      obtain ⟨k0, c0⟩ := p
      have hk' : maxKeyAux k0 c0 rest = k := Option.some.inj hk
      obtain ⟨c, hc, hle, hall⟩ := maxKeyAux_spec rest k0 c0
      rcases hc with ⟨heq, rfl⟩ | hmem
      · refine ⟨c, ?_, ?_⟩
        · rw [← hk', heq]
          exact List.mem_cons_self _ _
        · intro q hq
          rcases List.mem_cons.mp hq with rfl | hq'
          · exact le_refl _
          · exact hall q hq'
      · refine ⟨c, ?_, ?_⟩
        · rw [← hk']
          exact List.mem_cons_of_mem _ hmem
        · intro q hq
          rcases List.mem_cons.mp hq with rfl | hq'
          · exact hle
          · exact hall q hq'

/-- Witness for the amended C3 theorem at a concrete archive. -/
theorem detect_my_email_c3_amended_witness :
    tallyFolder [] (Option.some (Option.some (PyVal.pylist [bobMsg]))) = [] ∧
    tallyFolder [] (Option.some (Option.some (PyVal.pydict
      [(lit "messages", PyVal.pylist [bobMsg])]))) =
      [(PyVal.pystr (lit "b@x.com"), 1)] ∧
    (detect_my_email [] = Option.none ↔ ([] : List (Option FileRead)).foldl tallyFolder [] = []) := by
  have h := detect_my_email_c3_amended ([] : List (Option FileRead))
  refine ⟨h.1 [] [bobMsg], ?_, h.2.2.1⟩
  exact (h.2.1 [] [(lit "messages", PyVal.pylist [bobMsg])] [bobMsg] rfl).trans rfl

/-- C7 (confirmed): under the PINNED_ONLY filter the catalog step skips
every conversation whose pinned count is zero, and the resulting catalog is
exactly the DM- and Space-prefixed conversations (with a messages file)
whose pinned count is positive, in order; is_pinned holds exactly when the
message carries a label of type "PINNED", and count_pinned counts the
messages satisfying is_pinned. -/
theorem buildEntries_c7 (my : Str) (folders : List Folder) :
    buildEntries true false false my folders =
      (folders.filter pinnedKeep).map (pinnedEntry my) ∧
    (∀ m : Msg, is_pinned m = true ↔
      ∃ l ∈ m.message_labels.getD [], l.label_type = Option.some (lit "PINNED")) ∧
    (∀ msgs : List Msg, count_pinned msgs = msgs.countP (fun m => is_pinned m)) := by
  refine ⟨?_, ?_, ?_⟩
  · induction folders with
    | nil => rfl
    | cons f fs ih =>
      rw [buildEntries, List.flatMap_cons, ← buildEntries]
      rw [ih]
      rw [List.filter_cons]
      cases hmf : f.messagesFile with
      | none =>
        have hk : pinnedKeep f = false := by simp [pinnedKeep, hmf]
        simp only [hk, Bool.false_eq_true, if_false, catalogFolder, hmf, List.nil_append]
      | some msgs =>
        by_cases hpc : count_pinned msgs = 0
        · have hk : pinnedKeep f = false := by
            simp [pinnedKeep, hmf, hpc]
          have hcf : catalogFolder true false false my f = [] := by
            simp [catalogFolder, hmf, hpc]
          simp only [hk, Bool.false_eq_true, if_false, hcf, List.nil_append]
        · by_cases hdm : List.isPrefixOf (lit "DM") f.name = true
          · have hk : pinnedKeep f = true := by
              simp [pinnedKeep, hmf, hpc, hdm]
            have hcf : catalogFolder true false false my f =
                [dmEntry (pinTag (get_dm_participant msgs my)
                  (count_pinned msgs)) f.name] := by
              simp only [catalogFolder, hmf]
              rw [if_neg (by simp [hpc]), if_pos (by simp [hdm])]
            have hpe : pinnedEntry my f =
                dmEntry (pinTag (get_dm_participant msgs my)
                  (count_pinned msgs)) f.name := by
              simp [pinnedEntry, hmf, hdm]
            simp only [hk, if_true, List.map_cons, hcf, hpe, List.cons_append,
              List.nil_append]
          · by_cases hsp : List.isPrefixOf (lit "Space") f.name = true
            · have hk : pinnedKeep f = true := by
                simp [pinnedKeep, hmf, hpc, hsp]
              have hcf : catalogFolder true false false my f =
                  [spEntry (pinTag (spaceTitleOrName f)
                    (count_pinned msgs)) f.name] := by
                simp only [catalogFolder, hmf]
                rw [if_neg (by simp [hpc]), if_neg (by simp [hdm]),
                  if_pos (by simp [hsp])]
              have hpe : pinnedEntry my f =
                  spEntry (pinTag (spaceTitleOrName f)
                    (count_pinned msgs)) f.name := by
                simp [pinnedEntry, hmf, hdm]
              simp only [hk, if_true, List.map_cons, hcf, hpe, List.cons_append,
                List.nil_append]
            · have hk : pinnedKeep f = false := by
                simp [pinnedKeep, hmf, hdm, hsp]
              have hcf : catalogFolder true false false my f = [] := by
                simp only [catalogFolder, hmf]
                rw [if_neg (by simp [hpc]), if_neg (by simp [hdm]),
                  if_neg (by simp [hsp])]
              simp only [hk, Bool.false_eq_true, if_false, hcf, List.nil_append]
  · intro m
    constructor
    · intro h
      obtain ⟨l, hl, hlt⟩ := List.any_eq_true.mp h
      exact ⟨l, hl, by simpa using hlt⟩
    · intro ⟨l, hl, hlt⟩
      exact List.any_eq_true.mpr ⟨l, hl, by simp [hlt]⟩
  · intro msgs
    rw [count_pinned, List.countP_eq_length_filter]

/-- Witness for the C7 theorem at the spec's PINNED_ONLY scenario: the
folder without pinned messages is dropped, the other kept. -/
theorem buildEntries_c7_witness :
    buildEntries true false false (lit "a@x.com") [folderNoPin, folderPinned] =
      [pinnedEntry (lit "a@x.com") folderPinned] := by
  have h := (buildEntries_c7 (lit "a@x.com") [folderNoPin, folderPinned]).1
  exact h.trans rfl

theorem pySplitChar_ne_nil (sep : Char) (s : Str) : pySplitChar sep s ≠ [] := by
  cases s with
  | nil => simp [pySplitChar]
  | cons c cs =>
    unfold pySplitChar
    by_cases h : c == sep
    · simp [h]
    · simp only [h, Bool.false_eq_true, if_false]
      cases pySplitChar sep cs <;> simp

theorem pySplitChar_no_sep (sep : Char) (s : Str) (h : sep ∉ s) :
    pySplitChar sep s = [s] := by
  induction s with
  | nil => rfl
  | cons c cs ih =>
    have hc : (c == sep) = false := by
      simp only [beq_eq_false_iff_ne]
      intro hh
      exact h (hh ▸ List.mem_cons_self c cs)
    have hcs : sep ∉ cs := fun hh => h (List.mem_cons_of_mem c hh)
    unfold pySplitChar
    rw [ih hcs]
    simp [hc]

theorem pySplitChar_two_le (sep : Char) (s : Str) (h : sep ∈ s) :
    2 ≤ (pySplitChar sep s).length := by
  induction s with
  | nil => cases h
  | cons c cs ih =>
    unfold pySplitChar
    by_cases hc : c == sep
    · simp only [hc, if_true, List.length_cons]
      have := pySplitChar_ne_nil sep cs
      cases hr : pySplitChar sep cs with
      | nil => exact absurd hr this
      | cons a t => simp
    · have hcs : sep ∈ cs := by
        rcases List.mem_cons.mp h with rfl | hm
        · simp at hc
        · exact hm
      have h2 := ih hcs
      simp only [hc, Bool.false_eq_true, if_false]
      cases hr : pySplitChar sep cs with
      | nil => exact absurd hr (pySplitChar_ne_nil sep cs)
      | cons a t =>
        rw [hr] at h2
        simpa using h2

theorem getLastD_of_ne_nil {α : Type} (l : List α) (hl : l ≠ []) (d1 d2 : α) :
    l.getLastD d1 = l.getLastD d2 := by
  cases l with
  | nil => exact absurd rfl hl
  | cons a t => rw [List.getLastD_cons, List.getLastD_cons]

theorem pySplitChar_last_append (sep : Char) (ys : Str) (hys : sep ∉ ys) :
    ∀ xs : Str, (pySplitChar sep (xs ++ sep :: ys)).getLastD [] = ys := by
  intro xs
  induction xs with
  | nil =>
    rw [List.nil_append]
    unfold pySplitChar
    rw [if_pos (by simp), pySplitChar_no_sep sep ys hys]
    rfl
  | cons c xs ih =>
    rw [List.cons_append]
    unfold pySplitChar
    by_cases hc : c == sep
    · rw [if_pos hc, List.getLastD_cons]
      rw [getLastD_of_ne_nil _ (pySplitChar_ne_nil sep _) [] ([] : Str)] at ih
      exact ih
    · rw [if_neg (by simp_all)]
      cases hr : pySplitChar sep (xs ++ sep :: ys) with
      | nil => exact absurd hr (pySplitChar_ne_nil sep _)
      | cons h t =>
        have ht : t ≠ [] := by
          have h2 := pySplitChar_two_le sep (xs ++ sep :: ys) (by simp)
          rw [hr] at h2
          cases t with
          | nil => simp at h2
          | cons a b => simp
        rw [hr, List.getLastD_cons] at ih
        rw [List.getLastD_cons]
        rw [getLastD_of_ne_nil t ht (c :: h) h]
        exact ih

theorem pyStrip_cons_space (s : Str) : pyStrip (' ' :: s) = pyStrip s := by
  unfold pyStrip
  rw [show (' ' :: s).dropWhile isPyWs = s.dropWhile isPyWs from by
    rw [List.dropWhile_cons]
    simp [isPyWs]]

/-- C10 counterexample: the claim's provisos allow a folder name containing
"|"; for label "Bob" and folder "a|b" (no leading or trailing whitespace,
label free of "|") the catalog entry splits at the folder's own "|" and the
recovered name is "b", not "a|b". -/
theorem selectedFolder_c10_counterexample :
    ('|' ∉ lit "Bob") ∧ pyStrip (lit "a|b") = lit "a|b" ∧
    selectedFolder (dmEntry (lit "Bob") (lit "a|b")) = lit "b" ∧
    selectedFolder (dmEntry (lit "Bob") (lit "a|b")) ≠ lit "a|b" := by
  refine ⟨by decide, by decide, by decide, by decide⟩

/-- C10 (amended): taking the substring after the last "|" of a catalog
entry and stripping whitespace recovers the folder name, provided the
display label contains no "|", the folder name has no leading or trailing
whitespace, and — as the counterexample forces — the folder name itself
contains no "|"; this holds for both DM and SP entries. -/
theorem selectedFolder_c10_amended (label folderName : Str)
    (_hlabel : '|' ∉ label) (hfolder : '|' ∉ folderName)
    (hstrip : pyStrip folderName = folderName) :
    selectedFolder (dmEntry label folderName) = folderName ∧
    selectedFolder (spEntry label folderName) = folderName := by
  have key : ∀ tag : Str, '|' ∉ tag →
      selectedFolder (tag ++ ljust label 45 ++ lit " | " ++ folderName) = folderName := by
    intro tag htag
    have hassoc : tag ++ ljust label 45 ++ lit " | " ++ folderName =
        (tag ++ ljust label 45 ++ [' ']) ++ '|' :: (' ' :: folderName) := by
      simp [lit, List.append_assoc]
    rw [selectedFolder, hassoc,
      pySplitChar_last_append '|' (' ' :: folderName)
        (by
          intro hmem
          rcases List.mem_cons.mp hmem with h | h
          · cases h
          · exact hfolder h),
      pyStrip_cons_space, hstrip]
  exact ⟨key (lit "DM  ") (by decide), key (lit "SP  ") (by decide)⟩

/-- Witness for the amended C10 theorem at a concrete label and folder. -/
theorem selectedFolder_c10_amended_witness :
    selectedFolder (dmEntry (lit "Bob") (lit "DM_ab12")) = lit "DM_ab12" ∧
    selectedFolder (spEntry (lit "Team") (lit "Space_7")) = lit "Space_7" := by
  refine ⟨(selectedFolder_c10_amended (lit "Bob") (lit "DM_ab12")
    (by decide) (by decide) (by decide)).1,
    (selectedFolder_c10_amended (lit "Team") (lit "Space_7")
    (by decide) (by decide) (by decide)).2⟩

theorem wrapPy_check1 : wrapPy 4 (lit "aaaaaa") = [lit "aaaa", lit "aa"] := by decide

theorem wrapPy_check2 : wrapPy 5 (lit "x ab-cd") = [lit "x ab-", lit "cd"] := by decide

theorem wrapPy_check3 : wrapPy 2 (lit "   abc") = [lit " a", lit "bc"] := by decide

theorem wrapPy_check4 : wrapPy 3 (lit "ab--cd") = [lit "ab", lit "--", lit "cd"] := by
  decide

theorem wrapPy_check5 : wrapPy 5 (lit "aa b-cc") = [lit "aa", lit "b-cc"] := by decide

theorem wrapPy_check6 :
    splitChunks (munge (lit "e-mail ab-cd a-b-c wel2-done")) =
      [lit "e-mail", lit " ", lit "ab-", lit "cd", lit " ", lit "a-b-c", lit " ",
       lit "wel2-done"] := by decide

theorem wrapPy_check7 : wrapPy 1 (lit "a  b") = [lit "a", lit "b"] := by decide

theorem wrapPy_check8 : wrapPy 5 (lit "a  b") = [lit "a  b"] := by decide

/-- C2 counterexample, in three parts.  (1) A single word wider than the
content width is not placed on its own line unbroken: textwrap's default
break_long_words splits "aaaaaa" at width 4 into "aaaa"/"aa".  (2) The wrap
is not at whitespace only: with default break_on_hyphens, "x ab-cd" at width
5 wraps to "x ab-"/"cd", breaking the word "ab-cd" mid-word although every
whitespace-separated word occupies at most 5 columns.  (3) Lines are
measured in characters, not display columns: "x 哈哈" at width 4 stays on
one line whose display width is 6 > 4, and padding leaves it at 6, not 4,
although every word occupies at most 4 columns. -/
theorem draw_bubble_c2_counterexample :
    (wrapPy 4 (lit "aaaaaa") = [lit "aaaa", lit "aa"] ∧
      wordsOf (lit "aaaaaa") = [lit "aaaaaa"] ∧ 4 < wcswidth (lit "aaaaaa")) ∧
    (wrapPy 5 (lit "x ab-cd") = [lit "x ab-", lit "cd"] ∧
      wordsOf (lit "x ab-cd") = [lit "x", lit "ab-cd"] ∧
      (∀ wd ∈ wordsOf (lit "x ab-cd"), wcswidth wd ≤ 5) ∧
      (wrapPy 5 (lit "x ab-cd")).flatMap wordsOf ≠ wordsOf (lit "x ab-cd")) ∧
    (wrapPy 4 (lit "x 哈哈") = [lit "x 哈哈"] ∧
      (∀ wd ∈ wordsOf (lit "x 哈哈"), wcswidth wd ≤ 4) ∧
      wcswidth (lit "x 哈哈") = 6 ∧
      wcswidth (pad_text (lit "x 哈哈") 4) = 6) := by
  refine ⟨⟨by decide, by decide, by decide⟩,
    ⟨by decide, by decide, by decide, by decide⟩,
    by decide, by decide, by decide, by decide⟩

theorem greedyFill_spec (width : Nat) :
    ∀ (chunks acc : List Str) (len : Nat),
      ∃ k, greedyFill width acc len chunks =
        (acc.reverse ++ chunks.take k,
         len + ((chunks.take k).map List.length).sum, chunks.drop k) ∧
        (∀ c cs, chunks.drop k = c :: cs →
          width < len + ((chunks.take k).map List.length).sum + c.length) := by
  intro chunks
  induction chunks with
  | nil => exact fun acc len => ⟨0, by simp [greedyFill], by simp⟩
  | cons c cs ih =>
    intro acc len
    by_cases h : len + c.length ≤ width
    · obtain ⟨k, hk, hstop⟩ := ih (c :: acc) (len + c.length)
      refine ⟨k + 1, ?_, ?_⟩
      · rw [greedyFill, if_pos h, hk]
        rw [List.take_succ_cons, List.drop_succ_cons]
        have hsum : len + c.length + ((cs.take k).map List.length).sum =
            len + ((c :: cs.take k).map List.length).sum := by
          simp only [List.map_cons, List.sum_cons]
          omega
        rw [List.reverse_cons, List.append_assoc, List.singleton_append, hsum]
      · intro d ds hd
        rw [List.drop_succ_cons] at hd
        have := hstop d ds hd
        rw [List.take_succ_cons]
        simp only [List.map_cons, List.sum_cons] at this ⊢
        omega
    · refine ⟨0, by simp [greedyFill, h], ?_⟩
      intro d ds hd
      rw [List.drop_zero] at hd
      cases hd
      simp only [List.take_zero, List.map_nil, List.sum_nil]
      omega

theorem greedyFill_len_le (width : Nat) :
    ∀ (chunks acc : List Str) (len : Nat), len ≤ width →
      (greedyFill width acc len chunks).2.1 ≤ width := by
  intro chunks
  induction chunks with
  | nil => intro acc len h; simpa [greedyFill] using h
  | cons c cs ih =>
    intro acc len h
    by_cases hc : len + c.length ≤ width
    · rw [greedyFill, if_pos hc]
      exact ih (c :: acc) (len + c.length) hc
    · rw [greedyFill, if_neg hc]
      exact h

theorem rfindHyphen_lt (s : Str) (h : Nat) (hh : rfindHyphen s = Option.some h) :
    h < s.length := by
  unfold rfindHyphen at hh
  cases hi : s.reverse.findIdx? (fun c => c == '-') with
  | none => rw [hi] at hh; cases hh
  | some i =>
    rw [hi] at hh
    have : s.length - 1 - i = h := Option.some.inj hh
    have hne : s ≠ [] := by
      intro hnil
      rw [hnil] at hi
      cases hi
    have hlen : 1 ≤ s.length := by
      cases s with
      | nil => exact absurd rfl hne
      | cons a t => simp
    omega

theorem hypPos_pos_lt (spaceLeft : Nat) (chunk : Str)
    (h : 0 < hypPos spaceLeft chunk) :
    hypPos spaceLeft chunk < (chunk.take spaceLeft).length := by
  unfold hypPos at h ⊢
  cases hh : rfindHyphen (chunk.take spaceLeft) with
  | none => rw [hh] at h; simp at h
  | some p =>
    simpa using rfindHyphen_lt _ _ hh

theorem longWordEnd_le (spaceLeft : Nat) (chunk : Str) :
    longWordEnd spaceLeft chunk ≤ spaceLeft := by
  unfold longWordEnd
  split
  · split
    · rename_i hcond
      have h0 : 0 < hypPos spaceLeft chunk := by
        have := (Bool.and_eq_true_iff.mp hcond).1
        simpa using this
      have hlt := hypPos_pos_lt spaceLeft chunk h0
      have h4 : (chunk.take spaceLeft).length ≤ spaceLeft := List.length_take_le _ _
      omega
    · exact le_refl _
  · exact le_refl _

theorem longWordEnd_pos (spaceLeft : Nat) (chunk : Str) (h : 1 ≤ spaceLeft) :
    1 ≤ longWordEnd spaceLeft chunk := by
  unfold longWordEnd
  split
  · split
    · omega
    · exact h
  · exact h

/-- C8 (confirmed): in format_chat, a message whose stripped text is empty
and which carries no "PINNED"-type label contributes nothing to the composed
document (the document equals the one composed without it), while such a
message that is pinned is rendered with its header and a bubble drawn from
the fixed placeholder text "[Pinned message (non-text)]". -/
theorem format_chat_c8 (tw w : Nat) (my : Str) (m : Msg)
    (htext : pyStrip (m.text.getD []) = []) :
    (is_pinned m = false →
      renderMsgBlocks tw w my m = [] ∧
      ∀ pre post pinnedOnly,
        format_chat tw w (pre ++ m :: post) my pinnedOnly =
          format_chat tw w (pre ++ post) my pinnedOnly) ∧
    (is_pinned m = true →
      renderMsgBlocks tw w my m =
        ['\n' :: msgHeader tw my m,
         joinNl (draw_bubble tw w (lit "[Pinned message (non-text)]")
           (msgEmail m == Option.some my))]) := by
  constructor
  · intro hpin
    have hempty : renderMsgBlocks tw w my m = [] := by
      simp [renderMsgBlocks, htext, hpin]
    refine ⟨hempty, ?_⟩
    intro pre post pinnedOnly
    unfold format_chat
    rw [List.flatMap_append, List.flatMap_cons, hempty, List.flatMap_append,
      List.nil_append]
  · intro hpin
    simp [renderMsgBlocks, htext, hpin]

/-- Witness for the C8 theorem: a non-text message without labels is dropped
from the document; the same message with a PINNED label is rendered with
the placeholder bubble. -/
theorem format_chat_c8_witness :
    renderMsgBlocks 10 4 (lit "a@x.com")
      ⟨Option.none, Option.some (lit "  "), Option.none, Option.none⟩ = [] ∧
    renderMsgBlocks 10 4 (lit "a@x.com")
      ⟨Option.none, Option.some (lit "  "), Option.none,
       Option.some [⟨Option.some (lit "PINNED")⟩]⟩ =
      ['\n' :: msgHeader 10 (lit "a@x.com")
        ⟨Option.none, Option.some (lit "  "), Option.none,
         Option.some [⟨Option.some (lit "PINNED")⟩]⟩,
       joinNl (draw_bubble 10 4 (lit "[Pinned message (non-text)]") false)] := by
  constructor
  · exact ((format_chat_c8 10 4 (lit "a@x.com")
      ⟨Option.none, Option.some (lit "  "), Option.none, Option.none⟩
      (by decide)).1 (by decide)).1
  · have h := (format_chat_c8 10 4 (lit "a@x.com")
      ⟨Option.none, Option.some (lit "  "), Option.none,
       Option.some [⟨Option.some (lit "PINNED")⟩]⟩
      (by decide)).2 (by decide)
    rw [h]
    rfl

theorem handleLongWord_take_le (width curLen : Nat) (chunk : Str)
    (h1 : 1 ≤ width) (h2 : curLen ≤ width) :
    curLen + (handleLongWord width curLen chunk).1.length ≤ width := by
  unfold handleLongWord
  simp only [if_neg (by omega : ¬width < 1)]
  have hle := longWordEnd_le (width - curLen) chunk
  have h3 : (chunk.take (longWordEnd (width - curLen) chunk)).length ≤
      longWordEnd (width - curLen) chunk := List.length_take_le _ _
  omega

theorem handleLongWord_fst_take (width curLen : Nat) (chunk : Str) :
    (handleLongWord width curLen chunk).1 =
      chunk.take (longWordEnd (if width < 1 then 1 else width - curLen) chunk) := rfl

theorem handleLongWord_snd_drop (width curLen : Nat) (chunk : Str) :
    (handleLongWord width curLen chunk).2 =
      chunk.drop (longWordEnd (if width < 1 then 1 else width - curLen) chunk) := rfl

theorem handleLongWord_snd_le (width curLen : Nat) (chunk : Str) :
    (handleLongWord width curLen chunk).2.length ≤ chunk.length := by
  rw [handleLongWord_snd_drop, List.length_drop]
  omega

theorem handleLongWord_snd_lt_of_zero (width : Nat) (chunk : Str)
    (h : width < chunk.length) :
    (handleLongWord width 0 chunk).2.length < chunk.length := by
  rw [handleLongWord_snd_drop, List.length_drop]
  have hsl : 1 ≤ (if width < 1 then 1 else width - 0) := by
    split <;> omega
  have hpos := longWordEnd_pos (if width < 1 then 1 else width - 0) chunk hsl
  omega

theorem handleLongWord_snd_ne_nil (width curLen : Nat) (chunk : Str)
    (h1 : 1 ≤ width) (h2 : curLen ≤ width) (h3 : width < chunk.length) :
    (handleLongWord width curLen chunk).2 ≠ [] := by
  rw [handleLongWord_snd_drop]
  rw [if_neg (by omega : ¬width < 1)]
  have hle := longWordEnd_le (width - curLen) chunk
  intro hnil
  have h4 := List.drop_eq_nil_iff.mp hnil
  omega

theorem dropTrailBlank_sum_le (pieces : List Str) :
    ((dropTrailBlank pieces).map List.length).sum ≤ (pieces.map List.length).sum := by
  unfold dropTrailBlank
  cases hl : pieces.getLast? with
  | none => exact le_refl _
  | some last =>
    show ((if isBlankChunk last = true then pieces.dropLast else pieces).map
      List.length).sum ≤ (pieces.map List.length).sum
    by_cases hb : isBlankChunk last = true
    · rw [if_pos hb]
      have heq := List.dropLast_append_getLast? last hl
      conv_rhs => rw [← heq]
      rw [List.map_append, List.sum_append]
      simp
    · rw [if_neg hb]

theorem wrapStep_cases (width : Nat) (chunks : List Str) :
    ∃ k, ((chunks.take k).map List.length).sum ≤ width ∧
      ((wrapStep width chunks = (dropTrailBlank (chunks.take k), chunks.drop k) ∧
        (chunks.drop k = [] ∨
          ∃ c cs, chunks.drop k = c :: cs ∧ c.length ≤ width ∧
            width < ((chunks.take k).map List.length).sum + c.length)) ∨
       (∃ c cs, chunks.drop k = c :: cs ∧ width < c.length ∧
         wrapStep width chunks =
           (dropTrailBlank (chunks.take k ++
             [(handleLongWord width (((chunks.take k).map List.length).sum) c).1]),
            (handleLongWord width (((chunks.take k).map List.length).sum) c).2 :: cs))) := by
  obtain ⟨k, hk, hstop⟩ := greedyFill_spec width chunks [] 0
  have hlen := greedyFill_len_le width chunks [] 0 (Nat.zero_le width)
  rw [hk] at hlen
  simp only [List.reverse_nil, List.nil_append, Nat.zero_add] at hk hlen hstop
  refine ⟨k, hlen, ?_⟩
  have hws : wrapStep width chunks =
      (match chunks.drop k with
      | [] => (dropTrailBlank (chunks.take k), [])
      | c :: cs =>
        if width < c.length then
          (dropTrailBlank (chunks.take k ++
            [(handleLongWord width (((chunks.take k).map List.length).sum) c).1]),
           (handleLongWord width (((chunks.take k).map List.length).sum) c).2 :: cs)
        else (dropTrailBlank (chunks.take k), c :: cs)) := by
    unfold wrapStep
    rw [hk]
  cases hd : chunks.drop k with
  | nil =>
    rw [hd] at hws
    exact Or.inl ⟨hws, Or.inl rfl⟩
  | cons c cs =>
    rw [hd] at hws
    have hws2 : wrapStep width chunks =
        (if width < c.length then
          (dropTrailBlank (chunks.take k ++
            [(handleLongWord width (((chunks.take k).map List.length).sum) c).1]),
           (handleLongWord width (((chunks.take k).map List.length).sum) c).2 :: cs)
        else (dropTrailBlank (chunks.take k), c :: cs)) := hws
    by_cases hc : width < c.length
    · rw [if_pos hc] at hws2
      exact Or.inr ⟨c, cs, rfl, hc, hws2⟩
    · rw [if_neg hc] at hws2
      exact Or.inl ⟨hws2, Or.inr ⟨c, cs, rfl, by omega, hstop c cs hd⟩⟩

theorem wrapStep_line_le (width : Nat) (h1 : 1 ≤ width) (chunks : List Str) :
    ((wrapStep width chunks).1.flatten).length ≤ width := by
  obtain ⟨k, hsum, hcase⟩ := wrapStep_cases width chunks
  rcases hcase with ⟨heq, _⟩ | ⟨c, cs, hd, hc, heq⟩
  · rw [heq, List.length_flatten]
    exact le_trans (dropTrailBlank_sum_le _) hsum
  · rw [heq, List.length_flatten]
    refine le_trans (dropTrailBlank_sum_le _) ?_
    rw [List.map_append, List.sum_append]
    have hht := handleLongWord_take_le width
      (((chunks.take k).map List.length).sum) c h1 hsum
    simp only [List.map_cons, List.map_nil, List.sum_cons, List.sum_nil]
    omega

theorem wrapChunksAux_length_le (width : Nat) (h1 : 1 ≤ width) :
    ∀ (fuel : Nat) (chunks lines : List Str),
      (∀ l ∈ lines, l.length ≤ width) →
      ∀ l ∈ wrapChunksAux width fuel chunks lines, l.length ≤ width := by
  intro fuel
  induction fuel with
  | zero =>
    intro chunks lines hl l hm
    rw [wrapChunksAux] at hm
    exact hl l (List.mem_reverse.mp hm)
  | succ n ih =>
    intro chunks lines hl l hm
    cases chunks with
    | nil =>
      rw [wrapChunksAux] at hm
      exact hl l (List.mem_reverse.mp hm)
    | cons c0 r0 =>
      rw [wrapChunksAux] at hm
      cases hws : wrapStep width
          (if isBlankChunk c0 && !lines.isEmpty then r0 else c0 :: r0) with
      | mk cl3 rest2 =>
        rw [hws] at hm
        refine ih rest2 _ ?_ l hm
        intro l2 hl2
        by_cases hemp : cl3.isEmpty = true
        · rw [if_pos hemp] at hl2
          exact hl l2 hl2
        · rw [if_neg hemp] at hl2
          rcases List.mem_cons.mp hl2 with rfl | h2
          · have hb := wrapStep_line_le width h1
              (if isBlankChunk c0 && !lines.isEmpty then r0 else c0 :: r0)
            rw [hws] at hb
            exact hb
          · exact hl l2 h2

/-- Every line produced by textwrap.wrap has at most width characters, for
any input text and any width ≥ 1 (long words are broken, never overflowed). -/
theorem wrapPy_length_le (width : Nat) (h1 : 1 ≤ width) (text : Str) :
    ∀ l ∈ wrapPy width text, l.length ≤ width := by
  intro l hm
  exact wrapChunksAux_length_le width h1 _ _ [] (by simp) l hm

theorem chunksMeasure_take_drop (chunks : List Str) (k : Nat) :
    chunksMeasure (chunks.take k) + chunksMeasure (chunks.drop k) =
      chunksMeasure chunks := by
  unfold chunksMeasure
  conv_rhs => rw [← List.take_append_drop k chunks]
  rw [List.map_append, List.sum_append, List.length_append]
  omega

theorem chunksMeasure_pos (c : Str) (cs : List Str) :
    1 ≤ chunksMeasure (c :: cs) := by
  unfold chunksMeasure
  rw [List.map_cons, List.sum_cons, List.length_cons]
  omega

theorem chunksMeasure_take_pos (chunks : List Str) (k : Nat)
    (h1 : 1 ≤ k) (h2 : chunks ≠ []) :
    1 ≤ chunksMeasure (chunks.take k) := by
  unfold chunksMeasure
  have : 1 ≤ (chunks.take k).length := by
    rw [List.length_take]
    cases chunks with
    | nil => exact absurd rfl h2
    | cons a t => simp; omega
  omega

theorem wrapStep_measure_lt (width : Nat) (chunks : List Str) (hne : chunks ≠ []) :
    chunksMeasure (wrapStep width chunks).2 < chunksMeasure chunks := by
  obtain ⟨k, hsum, hcase⟩ := wrapStep_cases width chunks
  have hmtd := chunksMeasure_take_drop chunks k
  rcases hcase with ⟨heq, hrest⟩ | ⟨c, cs, hd, hc, heq⟩
  · rw [heq]
    dsimp only
    rcases hrest with hnil | ⟨c, cs, hd, hcle, hstop⟩
    · rw [hnil]
      have h1 : 1 ≤ chunksMeasure chunks := by
        cases chunks with
        | nil => exact absurd rfl hne
        | cons a t => exact chunksMeasure_pos a t
      have h0 : chunksMeasure [] = 0 := rfl
      omega
    · have hk1 : 1 ≤ ((chunks.take k).map List.length).sum := by omega
      have htk : 1 ≤ chunksMeasure (chunks.take k) := by
        unfold chunksMeasure
        omega
      omega
  · rw [heq]
    dsimp only
    have hdm : chunksMeasure (chunks.drop k) = c.length + 1 + chunksMeasure cs := by
      rw [hd]
      unfold chunksMeasure
      rw [List.map_cons, List.sum_cons, List.length_cons]
      omega
    have hrm : chunksMeasure
        ((handleLongWord width (((chunks.take k).map List.length).sum) c).2 :: cs) =
        (handleLongWord width (((chunks.take k).map List.length).sum) c).2.length +
          1 + chunksMeasure cs := by
      unfold chunksMeasure
      rw [List.map_cons, List.sum_cons, List.length_cons]
      omega
    have hrem_le := handleLongWord_snd_le width
      (((chunks.take k).map List.length).sum) c
    by_cases hk0 : k = 0
    · subst hk0
      have hs0 : ((chunks.take 0).map List.length).sum = 0 := by simp
      rw [hs0] at hrm hrem_le ⊢
      have hlt := handleLongWord_snd_lt_of_zero width c hc
      have ht0 : chunksMeasure (chunks.take 0) = 0 := rfl
      omega
    · have htk : 1 ≤ chunksMeasure (chunks.take k) :=
        chunksMeasure_take_pos chunks k (by omega) hne
      omega

theorem PiecesOk_take (pieces : List Str) (h : PiecesOk pieces) (k : Nat) :
    PiecesOk (pieces.take k) :=
  ⟨fun p hp => h.1 p (List.mem_of_mem_take hp), h.2.take k⟩

theorem PiecesOk_drop (pieces : List Str) (h : PiecesOk pieces) (k : Nat) :
    PiecesOk (pieces.drop k) :=
  ⟨fun p hp => h.1 p (List.mem_of_mem_drop hp), h.2.drop k⟩

theorem PiecesOk_dropLast (pieces : List Str) (h : PiecesOk pieces) :
    PiecesOk pieces.dropLast := by
  refine ⟨fun p hp => h.1 p (List.dropLast_subset _ hp), ?_⟩
  rw [List.dropLast_eq_take]
  exact h.2.take _

theorem PiecesOk_dropTrailBlank (pieces : List Str) (h : PiecesOk pieces) :
    PiecesOk (dropTrailBlank pieces) := by
  unfold dropTrailBlank
  cases hl : pieces.getLast? with
  | none => exact h
  | some last =>
    show PiecesOk (if isBlankChunk last = true then pieces.dropLast else pieces)
    by_cases hb : isBlankChunk last = true
    · rw [if_pos hb]
      exact PiecesOk_dropLast pieces h
    · rw [if_neg hb]
      exact h

theorem nonBlank_append (a b : List Str) :
    nonBlank (a ++ b) = nonBlank a ++ nonBlank b := by
  unfold nonBlank
  rw [List.filter_append]

theorem nonBlank_cons_blank (c : Str) (cs : List Str) (hc : isBlankChunk c = true) :
    nonBlank (c :: cs) = nonBlank cs := by
  unfold nonBlank
  rw [List.filter_cons]
  simp [hc]

theorem nonBlank_dropTrailBlank (pieces : List Str) :
    nonBlank (dropTrailBlank pieces) = nonBlank pieces := by
  unfold dropTrailBlank
  cases hl : pieces.getLast? with
  | none => rfl
  | some last =>
    show nonBlank (if isBlankChunk last = true then pieces.dropLast else pieces) =
      nonBlank pieces
    by_cases hb : isBlankChunk last = true
    · rw [if_pos hb]
      have heq := List.dropLast_append_getLast? last hl
      conv_rhs => rw [← heq]
      rw [nonBlank_append, nonBlank_cons_blank last [] hb]
      simp [nonBlank]
    · rw [if_neg hb]

theorem dropTrailBlank_append_blank (xs : List Str) (b : Str)
    (hb : isBlankChunk b = true) :
    dropTrailBlank (xs ++ [b]) = xs := by
  unfold dropTrailBlank
  rw [List.getLast?_concat]
  show (if isBlankChunk b = true then (xs ++ [b]).dropLast else xs ++ [b]) = xs
  rw [if_pos hb, List.dropLast_concat]

theorem wordsOfAux_ws_nil (p : Str) (hp : ∀ c ∈ p, isPyWs c = true) (rest : Str) :
    wordsOfAux (p ++ rest) [] = wordsOfAux rest [] := by
  induction p with
  | nil => rfl
  | cons c cs ih =>
    have hc : isPyWs c = true := hp c (List.mem_cons_self c cs)
    rw [List.cons_append, wordsOfAux, if_pos hc]
    show wordsOfAux (cs ++ rest) [] = wordsOfAux rest []
    exact ih (fun x hx => hp x (List.mem_cons_of_mem c hx))

theorem wordsOfAux_ws_acc (p : Str) (hp : ∀ c ∈ p, isPyWs c = true)
    (hpne : p ≠ []) (rest acc : Str) (hacc : acc ≠ []) :
    wordsOfAux (p ++ rest) acc = acc.reverse :: wordsOfAux rest [] := by
  cases p with
  | nil => exact absurd rfl hpne
  | cons c cs =>
    have hc : isPyWs c = true := hp c (List.mem_cons_self c cs)
    have haccE : acc.isEmpty = false := by
      cases acc with
      | nil => exact absurd rfl hacc
      | cons a t => rfl
    rw [List.cons_append, wordsOfAux, if_pos hc, haccE]
    show (acc.reverse :: wordsOfAux (cs ++ rest) []) =
      acc.reverse :: wordsOfAux rest []
    rw [wordsOfAux_ws_nil cs (fun x hx => hp x (List.mem_cons_of_mem c hx)) rest]

theorem wordsOfAux_word (p : Str) (hp : ∀ c ∈ p, isPyWs c = false) :
    ∀ (rest acc : Str),
      wordsOfAux (p ++ rest) acc = wordsOfAux rest (p.reverse ++ acc) := by
  induction p with
  | nil => intro rest acc; rfl
  | cons c cs ih =>
    intro rest acc
    have hc : isPyWs c = false := hp c (List.mem_cons_self c cs)
    rw [List.cons_append, wordsOfAux, hc]
    show wordsOfAux (cs ++ rest) (c :: acc) = wordsOfAux rest ((c :: cs).reverse ++ acc)
    rw [ih (fun x hx => hp x (List.mem_cons_of_mem c hx)) rest (c :: acc),
      List.reverse_cons, List.append_assoc, List.singleton_append]

theorem isBlankChunk_all_ws (p : Str) (h : isBlankChunk p = true) :
    ∀ c ∈ p, isPyWs c = true := by
  intro c hc
  exact List.all_eq_true.mp h c hc

theorem not_blank_of_word (p : Str) (hne : p ≠ [])
    (hw : p.all (fun x => !isPyWs x) = true) : isBlankChunk p = false := by
  cases p with
  | nil => exact absurd rfl hne
  | cons c cs =>
    have hc : (!isPyWs c) = true := List.all_eq_true.mp hw c (List.mem_cons_self c cs)
    unfold isBlankChunk
    rw [List.all_cons]
    simp only [Bool.and_eq_false_iff]
    left
    cases hpw : isPyWs c with
    | false => rfl
    | true => rw [hpw] at hc; cases hc

theorem wordsOf_flatten_pieces (pieces : List Str) (h : PiecesOk pieces) :
    wordsOf pieces.flatten = nonBlank pieces := by
  induction pieces with
  | nil => rfl
  | cons p ps ih =>
    obtain ⟨h1, h2⟩ := h
    have hps : PiecesOk ps := ⟨fun q hq => h1 q (List.mem_cons_of_mem p hq), h2.tail⟩
    have hpne : p ≠ [] := (h1 p (List.mem_cons_self p ps)).1
    rcases (h1 p (List.mem_cons_self p ps)).2 with hblank | hword
    · rw [List.flatten_cons, wordsOf, wordsOfAux_ws_nil p (isBlankChunk_all_ws p hblank),
        nonBlank_cons_blank p ps hblank]
      exact ih hps
    · have hnb : isBlankChunk p = false := not_blank_of_word p hpne hword
      have hpnw : ∀ c ∈ p, isPyWs c = false := by
        intro c hc
        have := List.all_eq_true.mp hword c hc
        cases hx : isPyWs c with
        | false => rfl
        | true => rw [hx] at this; cases this
      rw [List.flatten_cons, wordsOf, wordsOfAux_word p hpnw _ [], List.append_nil]
      have hnbc : nonBlank (p :: ps) = p :: nonBlank ps := by
        unfold nonBlank
        rw [List.filter_cons, hnb]
        rfl
      rw [hnbc]
      cases ps with
      | nil =>
        show wordsOfAux [] p.reverse = p :: nonBlank []
        rw [wordsOfAux]
        have hre : p.reverse.isEmpty = false := by
          cases hrp : p.reverse with
          | nil => exact absurd (by simpa using hrp) hpne
          | cons a t => rfl
        rw [hre]
        show [p.reverse.reverse] = p :: nonBlank []
        rw [List.reverse_reverse]
        rfl
      | cons q ps2 =>
        have hqblank : isBlankChunk q = true := by
          have hrel := List.chain'_cons.mp h2
          rcases hrel.1 with hpb | hqb
          · rw [hnb] at hpb; cases hpb
          · exact hqb
        have hqne : q ≠ [] := (h1 q (List.mem_cons_of_mem p (List.mem_cons_self q ps2))).1
        rw [List.flatten_cons,
          wordsOfAux_ws_acc q (isBlankChunk_all_ws q hqblank) hqne _ p.reverse
            (by simpa using hpne),
          List.reverse_reverse]
        have hih := ih hps
        rw [List.flatten_cons, wordsOf,
          wordsOfAux_ws_nil q (isBlankChunk_all_ws q hqblank)] at hih
        rw [hih, nonBlank_cons_blank q ps2 hqblank]

theorem wrapStep_words (width : Nat) (h1 : 1 ≤ width) (chunks : List Str)
    (hinv : ChunkInv width chunks) :
    ChunkInv width (wrapStep width chunks).2 ∧
    PiecesOk (wrapStep width chunks).1 ∧
    nonBlank (wrapStep width chunks).1 ++ nonBlank (wrapStep width chunks).2 =
      nonBlank chunks := by
  obtain ⟨hpo, hbound⟩ := hinv
  obtain ⟨k, hsum, hcase⟩ := wrapStep_cases width chunks
  have hTDinv : ChunkInv width (chunks.drop k) :=
    ⟨PiecesOk_drop chunks hpo k, fun c hc hb => hbound c (List.mem_of_mem_drop hc) hb⟩
  rcases hcase with ⟨heq, _⟩ | ⟨c, cs, hd, hc, heq⟩
  · rw [heq]
    dsimp only
    refine ⟨hTDinv, PiecesOk_dropTrailBlank _ (PiecesOk_take chunks hpo k), ?_⟩
    rw [nonBlank_dropTrailBlank, ← nonBlank_append, List.take_append_drop]
  · have hcmem : c ∈ chunks := by
      have hm : c ∈ chunks.drop k := by
        rw [hd]
        exact List.mem_cons_self c cs
      exact List.mem_of_mem_drop hm
    have hcblank : isBlankChunk c = true := by
      cases hbc : isBlankChunk c with
      | true => rfl
      | false =>
        have := hbound c hcmem hbc
        omega
    have hcws : ∀ x ∈ c, isPyWs x = true := isBlankChunk_all_ws c hcblank
    have htake_blank : isBlankChunk
        (handleLongWord width (((chunks.take k).map List.length).sum) c).1 = true := by
      rw [handleLongWord_fst_take]
      unfold isBlankChunk
      rw [List.all_eq_true]
      intro x hx
      exact hcws x (List.mem_of_mem_take hx)
    have hrem_blank : isBlankChunk
        (handleLongWord width (((chunks.take k).map List.length).sum) c).2 = true := by
      rw [handleLongWord_snd_drop]
      unfold isBlankChunk
      rw [List.all_eq_true]
      intro x hx
      exact hcws x (List.mem_of_mem_drop hx)
    have hrem_ne := handleLongWord_snd_ne_nil width
      (((chunks.take k).map List.length).sum) c h1 hsum hc
    rw [heq]
    dsimp only
    rw [dropTrailBlank_append_blank _ _ htake_blank]
    have hdropInv := hTDinv
    rw [hd] at hdropInv
    obtain ⟨⟨hps1, hps2⟩, hbnd⟩ := hdropInv
    refine ⟨⟨⟨?_, ?_⟩, ?_⟩, PiecesOk_take chunks hpo k, ?_⟩
    · intro p hp
      rcases List.mem_cons.mp hp with rfl | hp2
      · exact ⟨hrem_ne, Or.inl hrem_blank⟩
      · exact hps1 p (List.mem_cons_of_mem c hp2)
    · refine List.chain'_cons'.mpr ⟨?_, (List.chain'_cons'.mp hps2).2⟩
      intro y hy
      exact Or.inl hrem_blank
    · intro p hp hbf
      rcases List.mem_cons.mp hp with rfl | hp2
      · rw [hrem_blank] at hbf
        cases hbf
      · exact hbnd p (List.mem_cons_of_mem c hp2) hbf
    · rw [nonBlank_cons_blank _ cs hrem_blank]
      conv_rhs => rw [← List.take_append_drop k chunks]
      rw [nonBlank_append, hd, nonBlank_cons_blank c cs hcblank]

theorem simpleChar_no_tab (c : Char) (h : simpleChar c = true) :
    (c == '\t') = false := by
  cases hb : (c == '\t') with
  | false => rfl
  | true =>
    have hc : c = '\t' := beq_iff_eq.mp hb
    rw [hc] at h
    exact absurd h (by decide)

theorem simpleChar_no_hyphen (c : Char) (h : simpleChar c = true) :
    (c == '-') = false := by
  cases hb : (c == '-') with
  | false => rfl
  | true =>
    have hc : c = '-' := beq_iff_eq.mp hb
    rw [hc] at h
    exact absurd h (by decide)

theorem simpleChar_ws_space (c : Char) (h : simpleChar c = true)
    (hw : isPyWs c = true) : c = ' ' := by
  simp only [isPyWs, Bool.or_eq_true, beq_iff_eq] at hw
  rcases hw with ((((h1 | h2) | h3) | h4) | h5) | h6
  · exact h1
  · rw [h2] at h
    exact absurd h (by decide)
  · rw [h3] at h
    exact absurd h (by decide)
  · rw [h4] at h
    exact absurd h (by decide)
  · rw [h5] at h
    exact absurd h (by decide)
  · rw [h6] at h
    exact absurd h (by decide)

theorem simpleChar_width_one (c : Char) (h : simpleChar c = true) :
    charWidth c = 1 := by
  have hp : (0x20 ≤ c.toNat ∧ c.toNat ≤ 0x7e) := by
    simp only [simpleChar, Bool.and_eq_true, decide_eq_true_eq] at h
    exact ⟨h.1.1, h.1.2⟩
  unfold charWidth
  rw [if_neg (by omega), if_neg (by omega), if_neg (by omega)]

theorem expandtabsAux_id :
    ∀ (s : Str), (∀ c ∈ s, (c == '\t') = false) →
      ∀ col, expandtabsAux col s = s := by
  intro s
  induction s with
  | nil => intro _ _; rfl
  | cons c cs ih =>
    intro h col
    rw [expandtabsAux, h c (List.mem_cons_self c cs), if_neg (by decide)]
    by_cases hnl : (c == '\n' || c == '\r') = true
    · rw [if_pos hnl, ih (fun x hx => h x (List.mem_cons_of_mem c hx)) 0]
    · rw [if_neg hnl, ih (fun x hx => h x (List.mem_cons_of_mem c hx)) (col + 1)]

theorem munge_id (s : Str) (h : simpleText s = true) : munge s = s := by
  unfold munge
  rw [expandtabsAux_id s
    (fun c hc => simpleChar_no_tab c (List.all_eq_true.mp h c hc)) 0]
  have hmap : s.map (fun c => if isPyWs c then ' ' else c) = s.map id := by
    apply List.map_congr_left
    intro c hc
    by_cases hw : isPyWs c = true
    · rw [if_pos hw]
      exact (simpleChar_ws_space c (List.all_eq_true.mp h c hc) hw).symm
    · rw [if_neg hw]
      rfl
  rw [hmap, List.map_id]

theorem mem_takeWhile_pred {α : Type} (p : α → Bool) :
    ∀ (l : List α) (x : α), x ∈ l.takeWhile p → p x = true := by
  intro l
  induction l with
  | nil =>
    intro x hx
    cases hx
  | cons a t ih =>
    intro x hx
    rw [List.takeWhile_cons] at hx
    by_cases hp : p a = true
    · rw [if_pos hp] at hx
      rcases List.mem_cons.mp hx with rfl | hx2
      · exact hp
      · exact ih x hx2
    · rw [if_neg hp] at hx
      cases hx

theorem wordScan_no_hyphen :
    ∀ (cs consumedRev wordRev : Str), (∀ x ∈ cs, (x == '-') = false) →
      wordScan consumedRev wordRev cs =
        (wordRev.reverse ++ cs.takeWhile (fun x => !isPyWs x),
         cs.dropWhile (fun x => !isPyWs x)) := by
  intro cs
  induction cs with
  | nil =>
    intro cr wr _
    rw [wordScan]
    simp
  | cons c cs2 ih =>
    intro cr wr h
    have hch : (c == '-') = false := h c (List.mem_cons_self c cs2)
    have hea : emdashAhead (c :: cs2) = false := by
      unfold emdashAhead
      rw [List.takeWhile_cons, hch]
      simp
    rw [wordScan]
    by_cases hws : isPyWs c = true
    · rw [if_pos hws]
      rw [List.takeWhile_cons_of_neg (by simp [hws]),
        List.dropWhile_cons_of_neg (by simp [hws])]
      simp
    · rw [if_neg hws,
        if_neg (by rw [hch]; simp),
        if_neg (by rw [hea]; simp)]
      rw [ih (c :: cr) (c :: wr) (fun x hx => h x (List.mem_cons_of_mem c hx))]
      rw [List.takeWhile_cons_of_pos (by simp [hws]),
        List.dropWhile_cons_of_pos (by simp [hws])]
      rw [List.reverse_cons, List.append_assoc, List.singleton_append]

theorem splitAux_simple :
    ∀ (fuel : Nat) (s consumedRev : Str), s.length < fuel →
      (∀ x ∈ s, (x == '-') = false) →
      (splitAux fuel consumedRev s).flatten = s ∧
      (∀ ch ∈ splitAux fuel consumedRev s,
        ch ≠ [] ∧ (isBlankChunk ch = true ∨ ch.all (fun x => !isPyWs x) = true)) ∧
      List.Chain' (fun a b => isBlankChunk a = true ∨ isBlankChunk b = true)
        (splitAux fuel consumedRev s) := by
  intro fuel
  induction fuel with
  | zero =>
    intro s cr h _
    omega
  | succ n ih =>
    intro s cr hlen hnh
    cases s with
    | nil =>
      refine ⟨rfl, ?_, ?_⟩
      · intro ch hch
        rw [splitAux] at hch
        cases hch
      · rw [splitAux]
        exact List.chain'_nil
    | cons c cs =>
      rw [splitAux]
      by_cases hws : isPyWs c = true
      · rw [if_pos hws]
        have hsub : ∀ x ∈ (c :: cs).dropWhile isPyWs, (x == '-') = false :=
          fun x hx => hnh x ((List.dropWhile_sublist isPyWs).subset hx)
        have hlen2 : ((c :: cs).dropWhile isPyWs).length < n := by
          rw [List.dropWhile_cons_of_pos hws]
          have := (List.dropWhile_sublist (l := cs) isPyWs).length_le
          simp only [List.length_cons] at hlen
          omega
        obtain ⟨ihf, ihm, ihc⟩ := ih ((c :: cs).dropWhile isPyWs)
          ((((c :: cs).takeWhile isPyWs).reverse) ++ cr) hlen2 hsub
        have hrun_ne : (c :: cs).takeWhile isPyWs ≠ [] := by
          rw [List.takeWhile_cons_of_pos hws]
          simp
        have hrun_blank : isBlankChunk ((c :: cs).takeWhile isPyWs) = true := by
          unfold isBlankChunk
          rw [List.all_eq_true]
          exact fun x hx => mem_takeWhile_pred isPyWs (c :: cs) x hx
        refine ⟨?_, ?_, ?_⟩
        · rw [List.flatten_cons, ihf, List.takeWhile_append_dropWhile]
        · intro ch hch
          rcases List.mem_cons.mp hch with rfl | hch2
          · exact ⟨hrun_ne, Or.inl hrun_blank⟩
          · exact ihm ch hch2
        · refine List.chain'_cons'.mpr ⟨?_, ihc⟩
          intro y _
          exact Or.inl hrun_blank
      · rw [if_neg hws]
        have hch : (c == '-') = false := hnh c (List.mem_cons_self c cs)
        have hea : emdashAhead (c :: cs) = false := by
          unfold emdashAhead
          rw [List.takeWhile_cons, hch]
          simp
        rw [if_neg (by rw [hea]; simp)]
        rw [wordScan_no_hyphen cs (c :: cr) [c]
          (fun x hx => hnh x (List.mem_cons_of_mem c hx))]
        have hw_eq : ([c].reverse ++ cs.takeWhile (fun x => !isPyWs x)) =
            c :: cs.takeWhile (fun x => !isPyWs x) := by
          simp
        have hsub : ∀ x ∈ cs.dropWhile (fun x => !isPyWs x), (x == '-') = false :=
          fun x hx => hnh x
            (List.mem_cons_of_mem c ((List.dropWhile_sublist _).subset hx))
        have hlen2 : (cs.dropWhile (fun x => !isPyWs x)).length < n := by
          have := (List.dropWhile_sublist (l := cs) (fun x => !isPyWs x)).length_le
          simp only [List.length_cons] at hlen
          omega
        obtain ⟨ihf, ihm, ihc⟩ := ih (cs.dropWhile (fun x => !isPyWs x))
          ((([c].reverse ++ cs.takeWhile (fun x => !isPyWs x)).reverse) ++ cr)
          hlen2 hsub
        have hword_ne : ([c].reverse ++ cs.takeWhile (fun x => !isPyWs x)) ≠ [] := by
          rw [hw_eq]
          simp
        have hword_all : ([c].reverse ++ cs.takeWhile (fun x => !isPyWs x)).all
            (fun x => !isPyWs x) = true := by
          rw [hw_eq, List.all_cons]
          refine Bool.and_eq_true_iff.mpr ⟨by simp [hws], ?_⟩
          rw [List.all_eq_true]
          exact fun x hx => mem_takeWhile_pred (fun x => !isPyWs x) cs x hx
        refine ⟨?_, ?_, ?_⟩
        · rw [List.flatten_cons, ihf, hw_eq, List.cons_append,
            List.takeWhile_append_dropWhile]
        · intro ch hch
          rcases List.mem_cons.mp hch with rfl | hch2
          · exact ⟨hword_ne, Or.inr hword_all⟩
          · exact ihm ch hch2
        · refine List.chain'_cons'.mpr ⟨?_, ihc⟩
          intro y hy
          cases hres : splitAux n (([c].reverse ++
              cs.takeWhile (fun x => !isPyWs x)).reverse ++ cr)
              (cs.dropWhile (fun x => !isPyWs x)) with
          | nil =>
            rw [hres] at hy
            cases hy
          | cons b bs =>
            rw [hres] at hy ihf ihm
            have hyb : y = b := by
              simp only [List.head?_cons, Option.mem_def] at hy
              exact (Option.some.inj hy).symm
            rcases (ihm b (List.mem_cons_self b bs)).2 with hblank | hallnw
            · rw [hyb]
              exact Or.inr hblank
            · exfalso
              have hbne := (ihm b (List.mem_cons_self b bs)).1
              cases b with
              | nil => exact hbne rfl
              | cons bc bcs =>
                have hdw : (cs.dropWhile (fun x => !isPyWs x)) = bc :: (bcs ++ bs.flatten) := by
                  rw [← ihf, List.flatten_cons, List.cons_append]
                have hbc_not : isPyWs bc = true := by
                  have hh := List.head?_dropWhile_not (fun x => !isPyWs x) cs
                  rw [hdw] at hh
                  simpa using hh
                have hbc_yes : (!isPyWs bc) = true :=
                  List.all_eq_true.mp hallnw bc (List.mem_cons_self bc bcs)
                rw [hbc_not] at hbc_yes
                exact absurd hbc_yes (by decide)

theorem wrapChunksAux_words (width : Nat) (h1 : 1 ≤ width) :
    ∀ (fuel : Nat) (chunks lines : List Str),
      chunksMeasure chunks < fuel →
      ChunkInv width chunks →
      (wrapChunksAux width fuel chunks lines).flatMap wordsOf =
        lines.reverse.flatMap wordsOf ++ nonBlank chunks := by
  intro fuel
  induction fuel with
  | zero =>
    intro chunks lines hf _
    omega
  | succ n ih =>
    intro chunks lines hf hinv
    cases chunks with
    | nil =>
      rw [wrapChunksAux]
      show (lines.reverse).flatMap wordsOf = lines.reverse.flatMap wordsOf ++ nonBlank []
      rw [show nonBlank ([] : List Str) = [] from rfl, List.append_nil]
    | cons c0 r0 =>
      rw [wrapChunksAux]
      have hkey : ∀ (chunks2 : List Str),
          ChunkInv width chunks2 →
          nonBlank chunks2 = nonBlank (c0 :: r0) →
          chunksMeasure chunks2 ≤ chunksMeasure (c0 :: r0) →
          (match wrapStep width chunks2 with
           | (curLine3, rest2) => wrapChunksAux width n rest2
               (if curLine3.isEmpty then lines
                else curLine3.flatten :: lines)).flatMap wordsOf =
            lines.reverse.flatMap wordsOf ++ nonBlank (c0 :: r0) := by
        intro chunks2 hinv2 hnb2 hm2
        cases hws : wrapStep width chunks2 with
        | mk cl3 rest2 =>
          have hw := wrapStep_words width h1 chunks2 hinv2
          rw [hws] at hw
          dsimp only at hw
          obtain ⟨hinv3, hpo3, hnb3⟩ := hw
          have hmlt : chunksMeasure rest2 < n := by
            cases hc2 : chunks2 with
            | nil =>
              rw [hc2] at hws
              rw [show wrapStep width ([] : List Str) = ([], []) from rfl] at hws
              have hre : rest2 = [] := ((Prod.ext_iff.mp hws).2).symm
              rw [hre]
              have hp1 := chunksMeasure_pos c0 r0
              have h0 : chunksMeasure ([] : List Str) = 0 := rfl
              omega
            | cons a t =>
              have hlt := wrapStep_measure_lt width chunks2 (by rw [hc2]; simp)
              rw [hws] at hlt
              dsimp only at hlt
              omega
          show (wrapChunksAux width n rest2
              (if cl3.isEmpty then lines else cl3.flatten :: lines)).flatMap wordsOf = _
          rw [ih rest2 (if cl3.isEmpty then lines else cl3.flatten :: lines) hmlt hinv3]
          by_cases hemp : cl3.isEmpty = true
          · rw [if_pos hemp]
            have hcl3 : cl3 = [] := List.isEmpty_iff.mp hemp
            rw [hcl3] at hnb3
            rw [show nonBlank ([] : List Str) = [] from rfl, List.nil_append] at hnb3
            rw [hnb3, hnb2]
          · rw [if_neg hemp]
            rw [List.reverse_cons, List.flatMap_append, List.flatMap_cons,
              List.flatMap_nil, List.append_nil,
              wordsOf_flatten_pieces cl3 hpo3, List.append_assoc, hnb3, hnb2]
      by_cases hdrop : (isBlankChunk c0 && !lines.isEmpty) = true
      · rw [if_pos hdrop]
        have hc0 : isBlankChunk c0 = true := (Bool.and_eq_true_iff.mp hdrop).1
        refine hkey r0 ?_ ?_ ?_
        · obtain ⟨⟨hp1, hp2⟩, hb⟩ := hinv
          exact ⟨⟨fun p hp => hp1 p (List.mem_cons_of_mem c0 hp), hp2.tail⟩,
            fun p hp hbf => hb p (List.mem_cons_of_mem c0 hp) hbf⟩
        · rw [nonBlank_cons_blank c0 r0 hc0]
        · unfold chunksMeasure
          rw [List.map_cons, List.sum_cons, List.length_cons]
          omega
      · rw [if_neg hdrop]
        exact hkey (c0 :: r0) hinv rfl (le_refl _)

theorem splitChunks_simple (s : Str) (h : ∀ x ∈ s, (x == '-') = false) :
    (splitChunks s).flatten = s ∧ PiecesOk (splitChunks s) := by
  obtain ⟨hf, hm, hc⟩ := splitAux_simple (s.length + 1) s [] (by omega) h
  exact ⟨hf, hm, hc⟩

theorem dropTrailBlank_subset (pieces : List Str) :
    ∀ c ∈ dropTrailBlank pieces, c ∈ pieces := by
  intro c hc
  unfold dropTrailBlank at hc
  cases hl : pieces.getLast? with
  | none =>
    rw [hl] at hc
    exact hc
  | some last =>
    rw [hl] at hc
    have hc2 : c ∈ (if isBlankChunk last = true then pieces.dropLast else pieces) := hc
    by_cases hb : isBlankChunk last = true
    · rw [if_pos hb] at hc2
      exact List.dropLast_subset pieces hc2
    · rw [if_neg hb] at hc2
      exact hc2

theorem wrapStep_chars (width : Nat) (chunks : List Str) (P : Char → Bool)
    (h : ∀ c ∈ chunks, ∀ x ∈ c, P x = true) :
    (∀ c ∈ (wrapStep width chunks).1, ∀ x ∈ c, P x = true) ∧
    (∀ c ∈ (wrapStep width chunks).2, ∀ x ∈ c, P x = true) := by
  obtain ⟨k, hsum, hcase⟩ := wrapStep_cases width chunks
  rcases hcase with ⟨heq, _⟩ | ⟨c, cs, hd, hc, heq⟩
  · rw [heq]
    dsimp only
    constructor
    · intro p hp x hx
      exact h p (List.mem_of_mem_take (dropTrailBlank_subset _ p hp)) x hx
    · intro p hp x hx
      exact h p (List.mem_of_mem_drop hp) x hx
  · have hcmem : c ∈ chunks := by
      have hm : c ∈ chunks.drop k := by
        rw [hd]
        exact List.mem_cons_self c cs
      exact List.mem_of_mem_drop hm
    have hcsmem : ∀ p ∈ cs, p ∈ chunks := by
      intro p hp
      have hm : p ∈ chunks.drop k := by
        rw [hd]
        exact List.mem_cons_of_mem c hp
      exact List.mem_of_mem_drop hm
    rw [heq]
    dsimp only
    constructor
    · intro p hp x hx
      have hp2 := dropTrailBlank_subset _ p hp
      rcases List.mem_append.mp hp2 with hp3 | hp3
      · exact h p (List.mem_of_mem_take hp3) x hx
      · rcases List.mem_singleton.mp hp3 with rfl
        rw [handleLongWord_fst_take] at hx
        exact h c hcmem x (List.mem_of_mem_take hx)
    · intro p hp x hx
      rcases List.mem_cons.mp hp with rfl | hp2
      · rw [handleLongWord_snd_drop] at hx
        exact h c hcmem x (List.mem_of_mem_drop hx)
      · exact h p (hcsmem p hp2) x hx

theorem wrapChunksAux_chars (width : Nat) (P : Char → Bool) :
    ∀ (fuel : Nat) (chunks lines : List Str),
      (∀ c ∈ chunks, ∀ x ∈ c, P x = true) →
      (∀ l ∈ lines, ∀ x ∈ l, P x = true) →
      ∀ l ∈ wrapChunksAux width fuel chunks lines, ∀ x ∈ l, P x = true := by
  intro fuel
  induction fuel with
  | zero =>
    intro chunks lines _ hl l hm
    rw [wrapChunksAux] at hm
    exact hl l (List.mem_reverse.mp hm)
  | succ n ih =>
    intro chunks lines hc hl l hm
    cases chunks with
    | nil =>
      rw [wrapChunksAux] at hm
      exact hl l (List.mem_reverse.mp hm)
    | cons c0 r0 =>
      rw [wrapChunksAux] at hm
      have hc2 : ∀ c ∈ (if isBlankChunk c0 && !lines.isEmpty then r0 else c0 :: r0),
          ∀ x ∈ c, P x = true := by
        intro c hcm x hx
        by_cases hb : (isBlankChunk c0 && !lines.isEmpty) = true
        · rw [if_pos hb] at hcm
          exact hc c (List.mem_cons_of_mem c0 hcm) x hx
        · rw [if_neg hb] at hcm
          exact hc c hcm x hx
      cases hws : wrapStep width
          (if isBlankChunk c0 && !lines.isEmpty then r0 else c0 :: r0) with
      | mk cl3 rest2 =>
        rw [hws] at hm
        have hwc := wrapStep_chars width _ P hc2
        rw [hws] at hwc
        dsimp only at hwc
        refine ih rest2 _ hwc.2 ?_ l hm
        intro l2 hl2 x hx
        by_cases hemp : cl3.isEmpty = true
        · rw [if_pos hemp] at hl2
          exact hl l2 hl2 x hx
        · rw [if_neg hemp] at hl2
          rcases List.mem_cons.mp hl2 with rfl | h2
          · obtain ⟨piece, hpiece, hxp⟩ := List.mem_flatten.mp hx
            exact hwc.1 piece hpiece x hxp
          · exact hl l2 h2 x hx

theorem wcswidth_eq_length_of_simple (l : Str) (h : ∀ x ∈ l, simpleChar x = true) :
    wcswidth l = (l.length : Int) ∧ printable l = true := by
  have hp : printable l = true := by
    unfold printable
    rw [List.all_eq_true]
    intro c hc
    rw [simpleChar_width_one c (h c hc)]
    decide
  refine ⟨?_, hp⟩
  unfold wcswidth
  rw [if_pos hp]
  have hmc : l.map charWidth = l.map (fun _ => (1 : Int)) :=
    List.map_congr_left (fun c hc => simpleChar_width_one c (h c hc))
  rw [hmc, List.map_const', List.sum_replicate]
  simp

/-- For printable, hyphen-free ASCII text whose whitespace-separated words
each fit the width, textwrap.wrap breaks at whitespace only: concatenating
the words of the wrapped lines, in order, gives exactly the words of the
text. -/
theorem wrapPy_words (width : Nat) (h1 : 1 ≤ width) (text : Str)
    (hs : simpleText text = true)
    (hw : ∀ wd ∈ wordsOf text, wd.length ≤ width) :
    (wrapPy width text).flatMap wordsOf = wordsOf text := by
  unfold wrapPy
  rw [munge_id text hs]
  have hnh : ∀ x ∈ text, (x == '-') = false :=
    fun x hx => simpleChar_no_hyphen x (List.all_eq_true.mp hs x hx)
  obtain ⟨hfl, hpo⟩ := splitChunks_simple text hnh
  have hnbw : nonBlank (splitChunks text) = wordsOf text := by
    rw [← wordsOf_flatten_pieces _ hpo, hfl]
  have hinv : ChunkInv width (splitChunks text) := by
    refine ⟨hpo, ?_⟩
    intro c hc hb
    have hcm : c ∈ nonBlank (splitChunks text) := by
      unfold nonBlank
      rw [List.mem_filter]
      exact ⟨hc, by rw [hb]; rfl⟩
    rw [hnbw] at hcm
    exact hw c hcm
  have hfuel : chunksMeasure (splitChunks text) <
      ((splitChunks text).map List.length).sum + (splitChunks text).length + 1 := by
    unfold chunksMeasure
    omega
  rw [wrapChunksAux_words width h1 _ (splitChunks text) [] hfuel hinv]
  rw [hnbw]
  rfl

/-- Every character of every line produced by wrapPy on simple text is a
simple character. -/
theorem wrapPy_chars_simple (width : Nat) (text : Str) (hs : simpleText text = true) :
    ∀ l ∈ wrapPy width text, ∀ x ∈ l, simpleChar x = true := by
  unfold wrapPy
  rw [munge_id text hs]
  have hnh : ∀ x ∈ text, (x == '-') = false :=
    fun x hx => simpleChar_no_hyphen x (List.all_eq_true.mp hs x hx)
  obtain ⟨hfl, _⟩ := splitChunks_simple text hnh
  refine wrapChunksAux_chars width simpleChar _ (splitChunks text) [] ?_ (by simp)
  intro c hc x hx
  have hxt : x ∈ text := by
    rw [← hfl]
    exact List.mem_flatten.mpr ⟨c, hc, hx⟩
  exact List.all_eq_true.mp hs x hxt

/-- C2 (amended): for any content width w ≥ 1, (1) every line produced by
the wrap has at most w characters — a word wider than w is broken across
lines rather than placed on its own line and allowed to overflow, as the
counterexample shows; and, restricted to texts of printable non-hyphen
ASCII characters (the counterexample shows hyphenated and wide-character
texts escape the original claim), (2) when every whitespace-separated word
has at most w characters the wrap breaks at whitespace only — the words of
the wrapped lines concatenate, in order, to exactly the words of the text —
and (3) every wrapped line has, after padding, display width exactly w;
finally (4) draw_bubble frames exactly the wrapped, padded lines. -/
theorem draw_bubble_c2_amended (w : Nat) (hw1 : 1 ≤ w) (text : Str) :
    (∀ l ∈ wrapPy w text, l.length ≤ w) ∧
    (simpleText text = true →
      ((∀ wd ∈ wordsOf text, wd.length ≤ w) →
        (wrapPy w text).flatMap wordsOf = wordsOf text) ∧
      (∀ l ∈ wrapPy w text, wcswidth (pad_text l (Int.ofNat w)) = Int.ofNat w)) ∧
    (∀ tw, draw_bubble tw w text false =
      ('┌' :: (List.replicate (w + 2) '─' ++ ['┐'])) ::
        ((wrapPy w text).map (fun line =>
          '│' :: ' ' :: (pad_text line (Int.ofNat w) ++ [' ', '│']))) ++
        [('└' :: (List.replicate (w + 2) '─' ++ ['┘']))]) := by
  refine ⟨wrapPy_length_le w hw1 text, ?_, ?_⟩
  · intro hs
    refine ⟨wrapPy_words w hw1 text hs, ?_⟩
    intro l hl
    have hchars := wrapPy_chars_simple w text hs l hl
    obtain ⟨hwid, hprint⟩ := wcswidth_eq_length_of_simple l hchars
    have hlen := wrapPy_length_le w hw1 text l hl
    apply wcswidth_pad_text_of_printable l (Int.ofNat w) hprint
    rw [hwid, Int.ofNat_eq_coe]
    exact_mod_cast hlen
  · intro tw
    rfl

/-- Witness for the amended C2 theorem at a concrete width and text. -/
theorem draw_bubble_c2_amended_witness :
    (wrapPy 5 (lit "hello wide world")).flatMap wordsOf =
      wordsOf (lit "hello wide world") ∧
    wcswidth (pad_text (lit "wide") (Int.ofNat 5)) = Int.ofNat 5 := by
  have h := draw_bubble_c2_amended 5 (by decide) (lit "hello wide world")
  exact ⟨(h.2.1 (by decide)).1 (by decide),
    (h.2.1 (by decide)).2 (lit "wide") (by decide)⟩

end ChatViewer
